import Mathlib

/-
Verification development for the GeneticEngine tree-based representation:
a shallow embedding of geneticengine/core/grammar.py and
geneticengine/core/representations/treebased.py, together with theorems
about grammar preprocessing, tree synthesis, mutation and crossover.

Modelling conventions.
Python classes registered in a grammar are identified by natural-number
ids.  The embedding covers the fragment of the representation exercised
by the grammar machinery: symbols are either builtin primitives (int),
abstract classes, or concrete classes with an ordered list of field
types, each field type again a symbol id.  Generic list fields and
metahandler-annotated fields are outside the fragment.

The random source (geneticengine/core/random/sources.py is not part of
the sources; modelled from the spec) is a deterministic stream of raw
draws, a function from draw index to natural number, together with a
cursor.  Every operation consumes exactly one draw and advances the
cursor, so a run is reproduced by replaying the same stream.

Machine integers are modelled as Int/Nat; the 1000000 sentinel used by
grammar.py for an infinite distance-to-terminal is kept literally.
-/

/-- Meta is the derived metadata stored on every tree node by
relabel_nodes_of_trees: size (nodes), depth, and distance_to_term. -/
structure Meta where
  nodes : Nat
  depth : Nat
  distance_to_term : Nat
deriving DecidableEq

mutual
/-- TNode models a phenotype tree instance (geneticengine/core/tree.py is
not part of the sources; modelled from the spec: a concrete-type object
with bound field values plus derived metadata).  A prim node is a builtin
leaf value (an int drawn by random_int); a ctor node is an instance of a
concrete class c with metadata and its field values in declaration
order. -/
inductive TNode where
  | prim (v : Nat)
  | ctor (c : Nat) (m : Meta) (children : TNodeList)
deriving DecidableEq
/-- TNodeList is the list of field values of a ctor node. -/
inductive TNodeList where
  | nil
  | cons (hd : TNode) (tl : TNodeList)
deriving DecidableEq
end

/-- Err is the typed-error taxonomy of the embedding.  GeneticEngineError
messages become constructors carrying the offending type and budget (the
spec: explicit, typed failures carrying the offending type and budget).
fuelOut is a modelling artefact: recursion is paid for by an explicit
fuel so that all definitions are total; a fuelOut result corresponds to a
Python run that would still be recursing.  internal marks branches that
are unreachable by construction. -/
inductive Err where
  | recursionDepth (sym : Nat) (depth : Int)
  | depthInsufficient (sym : Nat) (depth : Int) (required : Nat)
  | symbolNotInGrammar (sym : Nat)
  | noProductions (sym : Nat) (depth : Int)
  | invalidGrammar (sym : Nat)
  | minTreeDepthSentinel
  | maxDepthTooSmall (provided : Int) (required : Nat)
  | notTreeNode
  | assertionFailed
  | fuelOut
  | internal
deriving DecidableEq

/-- GengyState models the class-level gengy metadata shared by every
grammar built over the same classes: for each class id, the weight stored
in its gengy dictionary, none when the class carries no weight key. -/
def GengyState : Type := Nat → Option ℚ

/-- GrammarDesc is the static description of the declared classes handed
to extract_grammar: the registered symbols (all_nodes after the
register_type closure), the considered subtypes, the starting symbol, and
per class: abstractness, the declared superclass, the ordered field
types, builtin-ness, and whether its constructor is fully
type-annotated. -/
structure GrammarDesc where
  symbols : List Nat
  considered_subtypes : List Nat
  starting_symbol : Nat
  isAbstractOf : Nat → Bool
  parentOf : Nat → Option Nat
  fieldsOf : Nat → List Nat
  isBuiltinOf : Nat → Bool
  ctorTyped : Nat → Bool
  expansion_depthing : Bool

/-- Grammar mirrors the Grammar class of grammar.py: the description plus
the derived production system (alternatives map), the non-terminal set,
the distance-to-terminal map and the recursive-production set.  The
alternatives function returns the empty list exactly when the symbol is
not a key of the Python alternatives dictionary. -/
structure Grammar extends GrammarDesc where
  alternatives : Nat → List Nat
  non_terminals : List Nat
  distanceToTerminal : Nat → Nat
  recursive_prods : List Nat

/-- Grammar.get_distance_to_terminal mirrors the method of grammar.py on
the symbol fragment: a plain symbol reads the distanceToTerminal map. -/
def Grammar.get_distance_to_terminal (g : Grammar) (s : Nat) : Nat :=
  g.distanceToTerminal s

/-- Grammar.get_min_tree_depth mirrors grammar.py: the distance to
terminal of the starting symbol. -/
def Grammar.get_min_tree_depth (g : Grammar) : Nat :=
  g.distanceToTerminal g.starting_symbol

/-- isTerminalSym models is_terminal(ty, non_terminals) of
geneticengine/core/utils.py (not part of the sources; modelled from the
spec: a type with no typed fields and not abstract is terminal, builtins
are terminal): a symbol is terminal when it is builtin or not a
non-terminal. -/
def isTerminalSym (g : Grammar) (s : Nat) : Bool :=
  g.isBuiltinOf s || !(g.non_terminals.contains s)

/-- randint models RandomSource.randint (modelled from the spec: a seeded
random source exposing a uniform-integer operation): one draw is consumed
and mapped into the closed interval from lo to hi.  Callers always supply
lo at most hi; otherwise the modulus degenerates, mirroring undefined
use. -/
def randint (r : Nat → Nat) (k : Nat) (lo hi : Int) : Int × Nat :=
  (lo + (((r k) % (hi + 1 - lo).toNat : Nat) : Int), k + 1)

/-- choice models RandomSource.choice (modelled from the spec: a
uniform-choice operation): one draw selects an index into the list.  The
default value is only returned on an empty list, which callers guard
against, as Python choice would raise there. -/
def choice (r : Nat → Nat) (k : Nat) (xs : List Nat) : Nat × Nat :=
  (xs.getD ((r k) % xs.length) 0, k + 1)

/-- wpick scans cumulative weights against a threshold and returns the
first index whose cumulative weight exceeds it, defaulting to the last
element. -/
def wpick (xs : List Nat) (ws : List ℚ) (u : ℚ) : Nat :=
  match xs, ws with
  | [], _ => 0
  | [x], _ => x
  | x :: xs', w :: ws' => if u < w then x else wpick xs' ws' (u - w)
  | x :: _, [] => x

/-- choice_weighted models RandomSource.choice_weighted (modelled from
the spec: a weighted-choice operation): one draw is turned into a
threshold below the total weight, and the element at the first cumulative
weight above the threshold is returned. -/
def choice_weighted (r : Nat → Nat) (k : Nat) (xs : List Nat) (ws : List ℚ) : Nat × Nat :=
  ((wpick xs ws ((((r k) % 1000 : Nat) : ℚ) * ws.sum / 1000)), k + 1)

/-- random_int mirrors random_int of treebased.py, with the draw itself
as the produced primitive value (the sys.maxsize range of the Python
implementation is collapsed onto the raw draw; no claim depends on the
numeric range, only on the value being a deterministic function of the
draw). -/
def random_int (r : Nat → Nat) (k : Nat) : Nat × Nat :=
  (r k, k + 1)

/-- get_gengy_weight models get_gengy(p).get of decorators.py (not part
of the sources; modelled from the spec: optional per-alternative weights
default 1.0): the stored class-level weight, defaulting to 1. -/
def get_gengy_weight (gs : GengyState) (p : Nat) : ℚ :=
  (gs p).getD 1

/-- filter_choices mirrors filter_choices of treebased.py: keep the
productions whose distance to terminal fits the budget, and if any of
those is recursive, keep only the recursive ones. -/
def filter_choices (g : Grammar) (possible_choices : List Nat) (depth : Int) : List Nat :=
  let valid_productions :=
    possible_choices.filter (fun vp => ((g.distanceToTerminal vp : Int)) ≤ depth)
  if valid_productions.any (fun prod => g.recursive_prods.contains prod) then
    valid_productions.filter (fun vp => g.recursive_prods.contains vp)
  else valid_productions

/-- metaZero is the metadata of a freshly constructed node before
relabel_nodes_of_trees has run. -/
def metaZero : Meta := ⟨0, 0, 0⟩

/-- EJob is the call shape of the expansion interpreter: expand one
symbol at a budget, or expand a list of field types at a budget. -/
inductive EJob where
  | node (depth : Int) (sym : Nat)
  | fieldsJob (depth : Int) (fs : List Nat)

/-- ERes is the result shape matching EJob. -/
inductive ERes where
  | tree (t : TNode)
  | trees (ts : TNodeList)

/-- expandGo is the embedding of expand_node of treebased.py.  The node
case mirrors expand_node line by line: the two budget checks at entry,
the builtin branch, the grammar-membership check, the alternatives branch
(filter_choices, the no-production error, weighted or uniform rule
choice, re-expansion of the chosen rule at the same budget) and the
concrete branch (fields expanded at budget minus one).  The fieldsJob
case expands the field types in declaration order, threading the draw
cursor.  PI_Grow resolves each deferred field by invoking exactly this
expansion at the recorded budget, so the produced trees are those of the
Python implementation with the queue draws removed and field expansions
ordered depth-first; every result is paid for by explicit fuel. -/
def expandGo (r : Nat → Nat) (g : Grammar) (gs : GengyState) :
    Nat → EJob → Nat → Except Err ERes × Nat
  | 0, _, k => (.error .fuelOut, k)
  | fuel + 1, .node depth sym, k =>
    if depth < 0 then (.error (.recursionDepth sym depth), k)
    else if depth < (g.get_distance_to_terminal sym : Int) then
      (.error (.depthInsufficient sym depth (g.get_distance_to_terminal sym)), k)
    else if g.isBuiltinOf sym then
      ((.ok (.tree (.prim ((random_int r k).1)))), (random_int r k).2)
    else if !(g.symbols.contains sym) then
      (.error (.symbolNotInGrammar sym), k)
    else if (g.alternatives sym).isEmpty then
      match expandGo r g gs fuel (.fieldsJob (depth - 1) (g.fieldsOf sym)) k with
      | (.ok (.trees ts), k1) => (.ok (.tree (.ctor sym metaZero ts)), k1)
      | (.ok (.tree _), k1) => (.error .internal, k1)
      | (.error e, k1) => (.error e, k1)
    else
      let compatible_productions := g.alternatives sym
      let valid_productions := filter_choices g compatible_productions depth
      if valid_productions.isEmpty then
        (.error (.noProductions sym depth), k)
      else if valid_productions.any (fun p => (gs p).isSome) then
        let rk := choice_weighted r k valid_productions
          (valid_productions.map (get_gengy_weight gs))
        expandGo r g gs fuel (.node depth rk.1) rk.2
      else
        let rk := choice r k valid_productions
        expandGo r g gs fuel (.node depth rk.1) rk.2
  | _ + 1, .fieldsJob _ [], k => (.ok (.trees .nil), k)
  | fuel + 1, .fieldsJob depth (f :: fs), k =>
    match expandGo r g gs fuel (.node depth f) k with
    | (.ok (.tree t), k1) =>
      match expandGo r g gs fuel (.fieldsJob depth fs) k1 with
      | (.ok (.trees ts), k2) => (.ok (.trees (.cons t ts)), k2)
      | (.ok (.tree _), k2) => (.error .internal, k2)
      | (.error e, k2) => (.error e, k2)
    | (.ok (.trees _), k1) => (.error .internal, k1)
    | (.error e, k1) => (.error e, k1)

mutual
/-- relabel_nodes is the inner relabel_nodes of relabel_nodes_of_trees of
treebased.py, written functionally: it returns the tree with metadata
rewritten together with the (number_of_nodes, distance_to_term) pair the
Python function returns.  A builtin leaf contributes (0, 1) and stores
nothing; a terminal class node stores nodes 0, its depth and distance 1
and contributes (0, 1); an inner node stores nodes one plus the sum over
children and distance one plus the maximum over children.  The Python
assert that an inner node has children is not representable as a value;
on an inner node with no children this embedding stores distance 1 where
Python would raise, a branch no grammar-produced tree reaches. -/
def relabel_nodes (nts : List Nat) : TNode → Nat → TNode × Nat × Nat
  | .prim v, _ => (.prim v, 0, 1)
  | .ctor c _ ch, depth =>
    if !(nts.contains c) then
      (.ctor c ⟨0, depth, 1⟩ ch, 0, 1)
    else
      match relabel_children nts ch (depth + 1) with
      | (ch', n, d) => (.ctor c ⟨1 + n, depth, 1 + d⟩ ch', 1 + n, 1 + d)
/-- relabel_children folds relabel_nodes over the children, summing node
counts and maximising distances. -/
def relabel_children (nts : List Nat) : TNodeList → Nat → TNodeList × Nat × Nat
  | .nil, _ => (.nil, 0, 0)
  | .cons h t, depth =>
    match relabel_nodes nts h depth with
    | (h', n1, d1) =>
      match relabel_children nts t depth with
      | (t', n2, d2) => (.cons h' t', n1 + n2, max d1 d2)
end

/-- relabel_nodes_of_trees mirrors relabel_nodes_of_trees of
treebased.py: recompute all the nodes, depth and distance_to_term in the
tree, starting at the given depth (default 1 at call sites). -/
def relabel_nodes_of_trees (i : TNode) (nts : List Nat) (max_depth : Nat) : TNode :=
  (relabel_nodes nts i max_depth).1

/-- fuelFor supplies the explicit fuel for a synthesis call; any bound
large enough for the requested budget works, as no theorem depends on the
exact amount. -/
def fuelFor (g : Grammar) (depth : Int) : Nat :=
  (depth.toNat + 2) * (g.symbols.length + 2) + 2

/-- PI_Grow mirrors PI_Grow of treebased.py: expand the starting symbol,
resolve every deferred field (each Future is resolved by expand_node at
its recorded budget; the queue-order interleaving of the shared stream is
modelled as the depth-first order fixed inside expandGo), then relabel
the finished tree with the grammar's non-terminals.  Errors raised while
resolving a future propagate out, as PI_Grow catches nothing. -/
def PI_Grow (r : Nat → Nat) (g : Grammar) (gs : GengyState) (depth : Int)
    (starting_symbol : Nat) (k : Nat) : Except Err TNode × Nat :=
  match expandGo r g gs (fuelFor g depth) (.node depth starting_symbol) k with
  | (.ok (.tree t), k1) => (.ok (relabel_nodes_of_trees t g.non_terminals 1), k1)
  | (.ok (.trees _), k1) => (.error .internal, k1)
  | (.error e, k1) => (.error e, k1)

/-- random_node is the alias random_node = PI_Grow of treebased.py. -/
def random_node (r : Nat → Nat) (g : Grammar) (gs : GengyState) (depth : Int)
    (starting_symbol : Nat) (k : Nat) : Except Err TNode × Nat :=
  PI_Grow r g gs depth starting_symbol k

/-- random_individual mirrors random_individual of treebased.py: the
failed assert on max_depth against get_min_tree_depth is re-raised as the
sentinel diagnostic when the minimal depth is the 1000000 default, or as
the explicit max-depth error otherwise; then random_node runs and the
result must be a TreeNode instance (a ctor node), not a builtin. -/
def random_individual (r : Nat → Nat) (g : Grammar) (gs : GengyState)
    (max_depth : Int) (k : Nat) : Except Err TNode × Nat :=
  if max_depth < (g.get_min_tree_depth : Int) then
    if g.get_min_tree_depth = 1000000 then (.error .minTreeDepthSentinel, k)
    else (.error (.maxDepthTooSmall max_depth g.get_min_tree_depth), k)
  else
    match random_node r g gs max_depth g.starting_symbol k with
    | (.ok (.ctor c m ch), k1) => (.ok (.ctor c m ch), k1)
    | (.ok (.prim _), k1) => (.error .notTreeNode, k1)
    | (.error e, k1) => (.error e, k1)

mutual
/-- deepcopy models copy.deepcopy on trees: a structurally identical,
freshly built tree. -/
def deepcopy : TNode → TNode
  | .prim v => .prim v
  | .ctor c m ch => .ctor c m (deepcopyList ch)
/-- deepcopyList copies a child list. -/
def deepcopyList : TNodeList → TNodeList
  | .nil => .nil
  | .cons h t => .cons (deepcopy h) (deepcopyList t)
end

mutual
/-- mutate_inner mirrors mutate_inner of treebased.py.  When the stored
node count is positive, one position is drawn; position zero resynthesizes
the declared supertype (the first base class) at budget max_depth minus
the stored depth plus one, and any exception from random_node, including
the lookup failure when the base class is not a grammar symbol, degrades
to returning the tree unchanged with the draws already consumed; any
other position walks the fields in declaration order exactly as the
Python loop does.  A tree with no stored node count, or a builtin leaf
(where Python would find no nodes attribute), is returned unchanged. -/
def mutate_inner (r : Nat → Nat) (g : Grammar) (gs : GengyState) (i : TNode)
    (max_depth : Int) (k : Nat) : TNode × Nat :=
  match i with
  | .prim v => (.prim v, k)
  | .ctor c0 m ch =>
    if 0 < m.nodes then
      let ck := randint r k 0 ((m.nodes : Int) - 1)
      if ck.1 = 0 then
        match g.parentOf c0 with
        | none => (.ctor c0 m ch, ck.2)
        | some ty =>
          match random_node r g gs (max_depth - (m.depth : Int) + 1) ty ck.2 with
          | (.ok replacement, k2) => (replacement, k2)
          | (.error _, k2) => (.ctor c0 m ch, k2)
      else
        match mutate_walk r g gs ch ck.1 max_depth ck.2 with
        | (ch', k2) => (.ctor c0 m ch', k2)
    else (.ctor c0 m ch, k)
/-- mutate_walk is the field loop of mutate_inner: builtin children are
skipped (no nodes attribute); a class child is selected when the running
counter is at most its stored node count, else the counter is decreased
and the walk continues; a walk that falls off the end leaves everything
unchanged. -/
def mutate_walk (r : Nat → Nat) (g : Grammar) (gs : GengyState) (ch : TNodeList)
    (c : Int) (max_depth : Int) (k : Nat) : TNodeList × Nat :=
  match ch with
  | .nil => (.nil, k)
  | .cons hd tl =>
    match hd with
    | .prim v =>
      match mutate_walk r g gs tl c max_depth k with
      | (tl', k1) => (.cons (.prim v) tl', k1)
    | .ctor c2 m2 ch2 =>
      if c ≤ (m2.nodes : Int) then
        match mutate_inner r g gs (.ctor c2 m2 ch2) max_depth k with
        | (hd', k1) => (.cons hd' tl, k1)
      else
        match mutate_walk r g gs tl (c - (m2.nodes : Int)) max_depth k with
        | (tl', k1) => (.cons (.ctor c2 m2 ch2) tl', k1)
end

/-- mutate mirrors mutate of treebased.py: deep-copy the input, run
mutate_inner on the copy, and relabel the result with the grammar's
non-terminals. -/
def mutate (r : Nat → Nat) (g : Grammar) (gs : GengyState) (i : TNode)
    (max_depth : Int) (k : Nat) : TNode × Nat :=
  match mutate_inner r g gs (deepcopy i) max_depth k with
  | (new_tree, k1) => (relabel_nodes_of_trees new_tree g.non_terminals 1, k1)

mutual
/-- find_in_tree mirrors find_in_tree of treebased.py: yield every
subtree of o whose first base class is the wanted type and whose stored
distance_to_term fits the budget, in preorder; builtin leaves match
nothing and have no annotations to recurse into. -/
def find_in_tree (g : Grammar) (ty : Nat) (o : TNode) (max_depth : Int) : List TNode :=
  match o with
  | .prim _ => []
  | .ctor c m ch =>
    (if g.parentOf c = some ty ∧ ((m.distance_to_term : Int)) ≤ max_depth then
      [TNode.ctor c m ch] else [])
      ++ find_in_tree_children g ty ch max_depth
/-- find_in_tree_children concatenates find_in_tree over the fields in
declaration order. -/
def find_in_tree_children (g : Grammar) (ty : Nat) (ch : TNodeList) (max_depth : Int) :
    List TNode :=
  match ch with
  | .nil => []
  | .cons h t => find_in_tree g ty h max_depth ++ find_in_tree_children g ty t max_depth
end

/-- choiceT models RandomSource.choice on a list of candidate subtrees
(modelled from the spec: a uniform-choice operation); the default is only
returned on an empty list, which the caller guards against. -/
def choiceT (r : Nat → Nat) (k : Nat) (xs : List TNode) : TNode × Nat :=
  (xs.getD ((r k) % xs.length) (TNode.prim 0), k + 1)

mutual
/-- tree_crossover_inner mirrors tree_crossover_inner of treebased.py.
At position zero the donor o is searched for compatible subtrees within
the remaining budget; if any exist one is drawn and spliced as-is,
otherwise fresh synthesis is attempted and a failure degrades to
returning the base subtree unchanged.  Other positions walk the fields
exactly as mutate does. -/
def tree_crossover_inner (r : Nat → Nat) (g : Grammar) (gs : GengyState)
    (i : TNode) (o : TNode) (max_depth : Int) (k : Nat) : TNode × Nat :=
  match i with
  | .prim v => (.prim v, k)
  | .ctor c0 m ch =>
    if 0 < m.nodes then
      let ck := randint r k 0 ((m.nodes : Int) - 1)
      if ck.1 = 0 then
        match g.parentOf c0 with
        | none => (.ctor c0 m ch, ck.2)
        | some ty =>
          let options := find_in_tree g ty o (max_depth - (m.depth : Int) + 1)
          if options.isEmpty then
            match random_node r g gs (max_depth - (m.depth : Int) + 1) ty ck.2 with
            | (.ok replacement, k2) => (replacement, k2)
            | (.error _, k2) => (.ctor c0 m ch, k2)
          else
            let tk := choiceT r ck.2 options
            (tk.1, tk.2)
      else
        match crossover_walk r g gs ch o ck.1 max_depth ck.2 with
        | (ch', k2) => (.ctor c0 m ch', k2)
    else (.ctor c0 m ch, k)
/-- crossover_walk is the field loop of tree_crossover_inner, identical
in shape to mutate_walk. -/
def crossover_walk (r : Nat → Nat) (g : Grammar) (gs : GengyState)
    (ch : TNodeList) (o : TNode) (c : Int) (max_depth : Int) (k : Nat) :
    TNodeList × Nat :=
  match ch with
  | .nil => (.nil, k)
  | .cons hd tl =>
    match hd with
    | .prim v =>
      match crossover_walk r g gs tl o c max_depth k with
      | (tl', k1) => (.cons (.prim v) tl', k1)
    | .ctor c2 m2 ch2 =>
      if c ≤ (m2.nodes : Int) then
        match tree_crossover_inner r g gs (.ctor c2 m2 ch2) o max_depth k with
        | (hd', k1) => (.cons hd' tl, k1)
      else
        match crossover_walk r g gs tl o (c - (m2.nodes : Int)) max_depth k with
        | (tl', k1) => (.cons (.ctor c2 m2 ch2) tl', k1)
end

/-- tree_crossover mirrors tree_crossover of treebased.py: two
independent directed crossovers on deep copies, the first with p1 as the
base, the second with p2 as the base, each relabelled before being
returned. -/
def tree_crossover (r : Nat → Nat) (g : Grammar) (gs : GengyState)
    (p1 p2 : TNode) (max_depth : Int) (k : Nat) : (TNode × TNode) × Nat :=
  match tree_crossover_inner r g gs (deepcopy p1) (deepcopy p2) max_depth k with
  | (new_tree1, k1) =>
    let relabeled_new_tree1 := relabel_nodes_of_trees new_tree1 g.non_terminals 1
    match tree_crossover_inner r g gs (deepcopy p2) (deepcopy p1) max_depth k1 with
    | (new_tree2, k2) =>
      let relabeled_new_tree2 := relabel_nodes_of_trees new_tree2 g.non_terminals 1
      ((relabeled_new_tree1, relabeled_new_tree2), k2)

/-- tree_crossover_single_tree mirrors tree_crossover_single_tree of
treebased.py: one directed crossover with p1 as the base. -/
def tree_crossover_single_tree (r : Nat → Nat) (g : Grammar) (gs : GengyState)
    (p1 p2 : TNode) (max_depth : Int) (k : Nat) : TNode × Nat :=
  match tree_crossover_inner r g gs (deepcopy p1) (deepcopy p2) max_depth k with
  | (new_tree, k1) => (relabel_nodes_of_trees new_tree g.non_terminals 1, k1)

/-- expansionStep is the int(self.expansion_depthing) step added per
abstract expansion in preprocess. -/
def expansionStep (g : Grammar) : Nat :=
  if g.expansion_depthing then 1 else 0

/-- passVal is the net effect of one preprocess loop body on one symbol,
given the current map d: an abstract symbol folds min over its
alternatives starting from its old value (exactly the val accumulation of
grammar.py); a terminal symbol proposes 0 for builtins without expansion
depthing and 1 otherwise, kept only if below the old value; a concrete
non-terminal proposes one plus the maximum field distance, kept only if
below the old value.  In every case the stored value is the minimum of
the old value and the proposal, since grammar.py assigns only when the
proposal is strictly smaller. -/
def passVal (g : Grammar) (d : Nat → Nat) (sym : Nat) : Nat :=
  if g.isAbstractOf sym then
    (g.alternatives sym).foldl (fun val prod => min val (expansionStep g + d prod)) (d sym)
  else if isTerminalSym g sym then
    min (d sym) (if g.isBuiltinOf sym && !g.expansion_depthing then 0 else 1)
  else
    min (d sym) ((g.fieldsOf sym).foldl (fun acc argt => max acc (1 + d argt)) 0)

/-- updD stores the passVal of one symbol back into the map. -/
def updD (g : Grammar) (d : Nat → Nat) (s : Nat) : Nat → Nat :=
  fun x => if x = s then passVal g d s else d x

/-- preprocess_pass is one full in-place sweep of the fixpoint loop over
all symbols, updating the map as it goes, as the Python loop mutates
distanceToTerminal during iteration. -/
def preprocess_pass (g : Grammar) (d : Nat → Nat) : Nat → Nat :=
  g.symbols.foldl (updD g) d

/-- distStable decides the exit condition of the fixpoint loop: a sweep
from the map d changes nothing, which is equivalent to every symbol
already being at its passVal. -/
def distStable (g : Grammar) (d : Nat → Nat) : Bool :=
  g.symbols.all (fun s => passVal g d s == d s)

/-- distIterate runs sweeps until the map is stable, fuelled; the fuel
chosen by preprocess provably suffices because every unstable sweep
strictly decreases the total of the map over the symbols. -/
def distIterate (g : Grammar) : Nat → (Nat → Nat) → (Nat → Nat)
  | 0, d => d
  | fuel + 1, d => if distStable g d then d else distIterate g fuel (preprocess_pass g d)

/-- initDist is the map at the start of preprocess: every registered
symbol reset to the 1000000 sentinel, everything else left as stored (the
Python dictionary keeps the builtin entries of the constructor for keys
outside all_sym). -/
def initDist (g : Grammar) : Nat → Nat :=
  fun s => if g.symbols.contains s then 1000000 else g.distanceToTerminal s

/-- distSum is the termination measure of the fixpoint loop. -/
def distSum (g : Grammar) (d : Nat → Nat) : Nat :=
  (g.symbols.map d).sum

/-- depEdges collects the symbols process_reachability records as
producible from a symbol in one step: the alternatives of an abstract
symbol, the field types of a concrete non-terminal, nothing for a
terminal. -/
def depEdges (g : Grammar) (s : Nat) : List Nat :=
  if g.isAbstractOf s then g.alternatives s
  else if isTerminalSym g s then []
  else g.fieldsOf s

/-- reachStep extends a reachable set by all one-step successors. -/
def reachStep (g : Grammar) (acc : List Nat) : List Nat :=
  (acc ++ acc.flatMap (depEdges g)).dedup

/-- reachIterate is the bounded closure of reachStep. -/
def reachIterate (g : Grammar) : Nat → List Nat → List Nat
  | 0, acc => acc
  | n + 1, acc => reachIterate g n (reachStep g acc)

/-- isRecursiveSym decides the recursive flag: a symbol reachable from
itself through a nonempty chain of depEdges (the spec glossary: a type
reachable from one of its own alternatives/fields).  The closure is
bounded by the symbol count, which covers every simple cycle; grammar.py
computes the same relation with an in-loop reachability closure. -/
def isRecursiveSym (g : Grammar) (s : Nat) : Bool :=
  (reachIterate g (g.symbols.length + 1) (depEdges g s)).contains s

/-- preprocess mirrors Grammar.preprocess of grammar.py: the
distance-to-terminal fixpoint starting from the sentinel map, and the
recursive-production set from the reachability relation.  The Python
while loop iterates all three derived structures together until none
changes; since the distance updates depend only on distances and the
reachability updates only on reachability, the combined loop converges to
the same maps as running the two fixpoints separately. -/
def preprocess (g : Grammar) : Grammar :=
  { g with
    distanceToTerminal := distIterate g (distSum g (initDist g) + 1) (initDist g),
    recursive_prods := g.symbols.filter (fun s => isRecursiveSym g s) }

/-- buildGrammar mirrors Grammar.__init__ together with the register_type
closure: the alternatives map lists, per abstract class, the registered
classes declaring it as their superclass; the non-terminals are the
abstract classes and the concrete classes with fields; the initial
distance map stores 0 for the builtins (the int, str, float entries of
the constructor) and the 1000000 sentinel for everything else (a key
absent from the Python dictionary); no production is marked recursive
before preprocess. -/
def buildGrammar (desc : GrammarDesc) : Grammar :=
  { toGrammarDesc := desc,
    alternatives := fun a => desc.symbols.filter (fun s => desc.parentOf s == some a),
    non_terminals :=
      desc.symbols.filter (fun s => desc.isAbstractOf s || !(desc.fieldsOf s).isEmpty),
    distanceToTerminal := fun s => if desc.isBuiltinOf s then 0 else 1000000,
    recursive_prods := [] }

/-- validate mirrors Grammar.validate: an InvalidGrammarException for the
first considered subtype that is neither abstract nor fully
type-annotated. -/
def validate (desc : GrammarDesc) : Except Err Unit :=
  match desc.considered_subtypes.find? (fun c => !desc.isAbstractOf c && !desc.ctorTyped c) with
  | some c => .error (.invalidGrammar c)
  | none => .ok ()

/-- Grammar.get_weights mirrors get_weights of grammar.py: for every
registered class, its class-level gengy weight, defaulting to 1. -/
def Grammar.get_weights (_g : Grammar) (gs : GengyState) : Nat → ℚ :=
  fun prod => get_gengy_weight gs prod

/-- updWeight is a pointwise update of a weight map. -/
def updWeight (w : Nat → ℚ) (p : Nat) (v : ℚ) : Nat → ℚ :=
  fun x => if x = p then v else w x

/-- update_weights_rule is the body of the per-rule loop of
update_weights: every production of the rule receives the learning-rate
step while the total accumulates the just-updated weight, then every
production is divided by the total. -/
def update_weights_rule (learning_rate : ℚ) (extra_weights : Nat → ℚ)
    (prods : List Nat) (w : Nat → ℚ) : Nat → ℚ :=
  let stepped := prods.foldl
    (fun (acc : (Nat → ℚ) × ℚ) p =>
      let w' := updWeight acc.1 p (acc.1 p + learning_rate * extra_weights p)
      (w', acc.2 + w' p))
    (w, 0)
  prods.foldl (fun wb p => updWeight wb p (wb p / stepped.2)) stepped.1

/-- update_weights mirrors Grammar.update_weights of grammar.py: starting
from the class-level weights, every rule of the alternatives map receives
the learning-rate step and is renormalized by its accumulated total; the
range assert of grammar.py becomes an error result; the new weights are
then written into the class-level gengy state of the starting symbol and
of every considered subtype, and the grammar object is reinitialized from
the same classes and preprocessed again.  The returned grammar is the
reinitialized one and the returned state is the mutated class-level
state. -/
def update_weights (gs : GengyState) (g : Grammar) (learning_rate : ℚ)
    (extra_weights : Nat → ℚ) : Except Err (Grammar × GengyState) :=
  let w1 := (g.symbols.filter (fun s => !(g.alternatives s).isEmpty)).foldl
    (fun w rule => update_weights_rule learning_rate extra_weights (g.alternatives rule) w)
    (g.get_weights gs)
  if g.symbols.all (fun p => decide (0 ≤ w1 p) && decide (w1 p ≤ 1)) then
    let gs1 : GengyState := fun p =>
      if p = g.starting_symbol || g.considered_subtypes.contains p then some (w1 p)
      else gs p
    match validate g.toGrammarDesc with
    | .error e => .error e
    | .ok _ => .ok (preprocess (buildGrammar g.toGrammarDesc), gs1)
  else .error .assertionFailed

/-- extract_grammar mirrors extract_grammar of grammar.py: construct and
validate the grammar over the declared classes, run preprocess, and if
any considered subtype carries an explicit weight, run update_weights
once with learning rate 1 over the current weights. -/
def extract_grammar (gs : GengyState) (desc : GrammarDesc) :
    Except Err (Grammar × GengyState) :=
  match validate desc with
  | .error e => .error e
  | .ok _ =>
    let g := preprocess (buildGrammar desc)
    if desc.considered_subtypes.any (fun p => (gs p).isSome) then
      update_weights gs g 1 (g.get_weights gs)
    else .ok (g, gs)

/-- gsNone is the class-level state in which no class carries an explicit
weight. -/
def gsNone : GengyState := fun _ => none

/-- exprDesc is the scenario grammar of the spec: abstract Expr (id 1)
with alternatives Plus (id 2, two Expr fields) and One (id 3, no
fields). -/
def exprDesc : GrammarDesc :=
  { symbols := [1, 2, 3],
    considered_subtypes := [2, 3],
    starting_symbol := 1,
    isAbstractOf := fun s => s == 1,
    parentOf := fun s => if s == 2 || s == 3 then some 1 else none,
    fieldsOf := fun s => if s == 2 then [1, 1] else [],
    isBuiltinOf := fun _ => false,
    ctorTyped := fun _ => true,
    expansion_depthing := false }

/-- exprG is the preprocessed scenario grammar. -/
def exprG : Grammar := preprocess (buildGrammar exprDesc)

/-- loopDesc is a grammar with no finite completion: abstract A (id 10)
whose only alternative P (id 11) has an A field. -/
def loopDesc : GrammarDesc :=
  { symbols := [10, 11],
    considered_subtypes := [11],
    starting_symbol := 10,
    isAbstractOf := fun s => s == 10,
    parentOf := fun s => if s == 11 then some 10 else none,
    fieldsOf := fun s => if s == 11 then [10] else [],
    isBuiltinOf := fun _ => false,
    ctorTyped := fun _ => true,
    expansion_depthing := false }

/-- loopG is the preprocessed loop grammar. -/
def loopG : Grammar := preprocess (buildGrammar loopDesc)

/-- rZero is the all-zeros random stream. -/
def rZero : Nat → Nat := fun _ => 0

/-
Heap model.  The frame claims (mutation and crossover never modify the
trees passed in) are about Python object identity, so they are settled on
an explicit store: objects live at addresses, field values are references,
setattr is a store write, and deepcopy allocates a fresh block.  The
stateful operations below are the heap-level rendering of mutate and
tree_crossover; the value-level functions above are reused for the pure
parts (synthesis of replacement subtrees).
-/

/-- HObj is a heap object: a builtin leaf value or a class instance whose
field values are references to other addresses. -/
inductive HObj where
  | primO (v : Nat)
  | ctorO (c : Nat) (m : Meta) (refs : List Nat)
deriving DecidableEq

/-- Store is the heap: the object at address a is the list entry a, and
allocation appends. -/
abbrev Store : Type := List HObj

/-- refsOf lists the outgoing references of an object. -/
def refsOf : HObj → List Nat
  | .primO _ => []
  | .ctorO _ _ rs => rs

/-- hsetField models setattr on a field: rewrite one reference of the
instance at the given address. -/
def hsetField (s : Store) (a : Nat) (idx : Nat) (ref : Nat) : Store :=
  match s.get? a with
  | some (.ctorO c m rs) => s.set a (.ctorO c m (rs.set idx ref))
  | _ => s

/-- hsetMeta models the metadata writes of relabel_nodes: rewrite the
metadata of the instance at the given address. -/
def hsetMeta (s : Store) (a : Nat) (m : Meta) : Store :=
  match s.get? a with
  | some (.ctorO c _ rs) => s.set a (.ctorO c m rs)
  | _ => s

mutual
/-- allocTree lays a value-level tree out in the heap, children first,
and returns the address of the root. -/
def allocTree : Store → TNode → Store × Nat
  | s, .prim v => (s ++ [HObj.primO v], s.length)
  | s, .ctor c m ch =>
    match allocList s ch with
    | (s1, rs) => (s1 ++ [HObj.ctorO c m rs], s1.length)
/-- allocList lays out a child list and returns the child addresses. -/
def allocList : Store → TNodeList → Store × List Nat
  | s, .nil => (s, [])
  | s, .cons h t =>
    match allocTree s h with
    | (s1, a) =>
      match allocList s1 t with
      | (s2, rs) => (s2, a :: rs)
end

/-- RJob is the call shape of the heap reader. -/
inductive RJob where
  | rnode (a : Nat)
  | rlist (as' : List Nat)

/-- RRes is the result shape of the heap reader. -/
inductive RRes where
  | rtree (t : TNode)
  | rtrees (ts : TNodeList)

/-- readGo reads the tree rooted at an address out of the heap, fuelled;
a missing object or exhausted fuel reads as a default leaf, a corner no
well-formed store reaches. -/
def readGo (s : Store) : Nat → RJob → RRes
  | 0, .rnode _ => .rtree (.prim 0)
  | 0, .rlist _ => .rtrees .nil
  | fuel + 1, .rnode a =>
    match s.get? a with
    | some (.primO v) => .rtree (.prim v)
    | some (.ctorO c m rs) =>
      match readGo s fuel (.rlist rs) with
      | .rtrees ts => .rtree (.ctor c m ts)
      | .rtree _ => .rtree (.prim 0)
    | none => .rtree (.prim 0)
  | _ + 1, .rlist [] => .rtrees .nil
  | fuel + 1, .rlist (a :: as') =>
    match readGo s fuel (.rnode a), readGo s fuel (.rlist as') with
    | .rtree t, .rtrees ts => .rtrees (.cons t ts)
    | _, _ => .rtrees .nil

/-- readTree is the node-shaped entry point of readGo. -/
def readTree (fuel : Nat) (s : Store) (a : Nat) : TNode :=
  match readGo s fuel (.rnode a) with
  | .rtree t => t
  | .rtrees _ => .prim 0

/-- deepcopyH models copy.deepcopy on the heap: read the tree reachable
from the address and allocate a structurally identical fresh block,
returning the new root. -/
def deepcopyH (s : Store) (a : Nat) : Store × Nat :=
  allocTree s (readTree (2 * s.length + 2) s a)

/-- MJob is the call shape of the heap-level mutate_inner: mutate the
subtree at an address, or walk the fields of a parent looking for the
drawn position, carrying the reference list still to scan, the field
index reached, and the running counter. -/
inductive MJob where
  | mnode (a : Nat)
  | mwalk (parent : Nat) (rs : List Nat) (idx : Nat) (c : Int)

/-- hmutateGo is mutate_inner of treebased.py on the store: reads take
the place of attribute access and hsetField takes the place of setattr;
replacement subtrees are synthesized by the pure random_node and then
allocated.  The result is the store, the address of the resulting
subtree (the parent address for a walk), and the draw cursor. -/
def hmutateGo (r : Nat → Nat) (g : Grammar) (gs : GengyState) (maxd : Int) :
    Nat → Store → MJob → Nat → Store × Nat × Nat
  | 0, s, .mnode a, k => (s, a, k)
  | 0, s, .mwalk parent _ _ _, k => (s, parent, k)
  | fuel + 1, s, .mnode a, k =>
    match s.get? a with
    | some (.ctorO c0 m _) =>
      if 0 < m.nodes then
        let ck := randint r k 0 ((m.nodes : Int) - 1)
        if ck.1 = 0 then
          match g.parentOf c0 with
          | none => (s, a, ck.2)
          | some ty =>
            match random_node r g gs (maxd - (m.depth : Int) + 1) ty ck.2 with
            | (.ok replacement, k2) =>
              match allocTree s replacement with
              | (s1, a1) => (s1, a1, k2)
            | (.error _, k2) => (s, a, k2)
        else
          match s.get? a with
          | some (.ctorO _ _ rs) => hmutateGo r g gs maxd fuel s (.mwalk a rs 0 ck.1) ck.2
          | _ => (s, a, ck.2)
      else (s, a, k)
    | _ => (s, a, k)
  | _ + 1, s, .mwalk parent [] _ _, k => (s, parent, k)
  | fuel + 1, s, .mwalk parent (a :: rest) idx c, k =>
    match s.get? a with
    | some (.ctorO _ m2 _) =>
      if c ≤ (m2.nodes : Int) then
        match hmutateGo r g gs maxd fuel s (.mnode a) k with
        | (s1, a1, k1) => (hsetField s1 parent idx a1, parent, k1)
      else hmutateGo r g gs maxd fuel s (.mwalk parent rest (idx + 1) (c - (m2.nodes : Int))) k
    | _ => hmutateGo r g gs maxd fuel s (.mwalk parent rest (idx + 1) c) k

/-- RLJob is the call shape of the heap-level relabel_nodes. -/
inductive RLJob where
  | rlnode (a : Nat) (depth : Nat)
  | rllist (as' : List Nat) (depth : Nat)

/-- hrelabelGo is relabel_nodes of treebased.py on the store: metadata is
rewritten in place along the tree, and the (number_of_nodes,
distance_to_term) pair is returned. -/
def hrelabelGo (nts : List Nat) : Nat → Store → RLJob → Store × Nat × Nat
  | 0, s, .rlnode _ _ => (s, 0, 1)
  | 0, s, .rllist _ _ => (s, 0, 0)
  | fuel + 1, s, .rlnode a depth =>
    match s.get? a with
    | some (.primO _) => (s, 0, 1)
    | some (.ctorO c _ rs) =>
      if !(nts.contains c) then (hsetMeta s a ⟨0, depth, 1⟩, 0, 1)
      else
        match hrelabelGo nts fuel s (.rllist rs (depth + 1)) with
        | (s1, n, d) => (hsetMeta s1 a ⟨1 + n, depth, 1 + d⟩, 1 + n, 1 + d)
    | none => (s, 0, 1)
  | _ + 1, s, .rllist [] _ => (s, 0, 0)
  | fuel + 1, s, .rllist (a :: rest) depth =>
    match hrelabelGo nts fuel s (.rlnode a depth) with
    | (s1, n1, d1) =>
      match hrelabelGo nts fuel s1 (.rllist rest depth) with
      | (s2, n2, d2) => (s2, n1 + n2, max d1 d2)

/-- FJob is the call shape of the heap-level find_in_tree. -/
inductive FJob where
  | fnode (a : Nat)
  | flist (as' : List Nat)

/-- hfindGo is find_in_tree of treebased.py on the store: the addresses
of the subtrees of the donor whose first base class is the wanted type
and whose stored distance_to_term fits the budget, in preorder. -/
def hfindGo (g : Grammar) (ty : Nat) (max_depth : Int) (s : Store) :
    Nat → FJob → List Nat
  | 0, _ => []
  | fuel + 1, .fnode a =>
    match s.get? a with
    | some (.ctorO c m rs) =>
      (if g.parentOf c = some ty ∧ ((m.distance_to_term : Int)) ≤ max_depth then [a] else [])
        ++ hfindGo g ty max_depth s fuel (.flist rs)
    | _ => []
  | _ + 1, .flist [] => []
  | fuel + 1, .flist (a :: as') =>
    hfindGo g ty max_depth s fuel (.fnode a) ++ hfindGo g ty max_depth s fuel (.flist as')

/-- choiceA models RandomSource.choice on a list of candidate addresses
(modelled from the spec: a uniform-choice operation); the default is only
returned on an empty list, which the caller guards against. -/
def choiceA (r : Nat → Nat) (k : Nat) (xs : List Nat) : Nat × Nat :=
  (xs.getD ((r k) % xs.length) 0, k + 1)

/-- XJob is the call shape of the heap-level tree_crossover_inner. -/
inductive XJob where
  | xnode (a : Nat)
  | xwalk (parent : Nat) (rs : List Nat) (idx : Nat) (c : Int)

/-- hcrossoverGo is tree_crossover_inner of treebased.py on the store:
at position zero the donor rooted at o is searched for compatible
subtrees within budget; a found subtree is spliced by reference, exactly
as the Python code splices the object drawn from the copied donor;
otherwise fresh synthesis is attempted, degrading to a no-op on
failure. -/
def hcrossoverGo (r : Nat → Nat) (g : Grammar) (gs : GengyState) (o : Nat)
    (maxd : Int) : Nat → Store → XJob → Nat → Store × Nat × Nat
  | 0, s, .xnode a, k => (s, a, k)
  | 0, s, .xwalk parent _ _ _, k => (s, parent, k)
  | fuel + 1, s, .xnode a, k =>
    match s.get? a with
    | some (.ctorO c0 m _) =>
      if 0 < m.nodes then
        let ck := randint r k 0 ((m.nodes : Int) - 1)
        if ck.1 = 0 then
          match g.parentOf c0 with
          | none => (s, a, ck.2)
          | some ty =>
            let options := hfindGo g ty (maxd - (m.depth : Int) + 1) s
              (2 * s.length + 2) (.fnode o)
            if options.isEmpty then
              match random_node r g gs (maxd - (m.depth : Int) + 1) ty ck.2 with
              | (.ok replacement, k2) =>
                match allocTree s replacement with
                | (s1, a1) => (s1, a1, k2)
              | (.error _, k2) => (s, a, k2)
            else
              let tk := choiceA r ck.2 options
              (s, tk.1, tk.2)
        else
          match s.get? a with
          | some (.ctorO _ _ rs) => hcrossoverGo r g gs o maxd fuel s (.xwalk a rs 0 ck.1) ck.2
          | _ => (s, a, ck.2)
      else (s, a, k)
    | _ => (s, a, k)
  | _ + 1, s, .xwalk parent [] _ _, k => (s, parent, k)
  | fuel + 1, s, .xwalk parent (a :: rest) idx c, k =>
    match s.get? a with
    | some (.ctorO _ m2 _) =>
      if c ≤ (m2.nodes : Int) then
        match hcrossoverGo r g gs o maxd fuel s (.xnode a) k with
        | (s1, a1, k1) => (hsetField s1 parent idx a1, parent, k1)
      else hcrossoverGo r g gs o maxd fuel s (.xwalk parent rest (idx + 1) (c - (m2.nodes : Int))) k
    | _ => hcrossoverGo r g gs o maxd fuel s (.xwalk parent rest (idx + 1) c) k

/-- hmutate is mutate of treebased.py on the store: deep-copy the input
tree, run the heap-level mutate_inner on the copy, relabel the result in
place, and return the store, the root of the new tree and the cursor. -/
def hmutate (fuel : Nat) (r : Nat → Nat) (g : Grammar) (gs : GengyState)
    (s : Store) (i : Nat) (max_depth : Int) (k : Nat) : Store × Nat × Nat :=
  match deepcopyH s i with
  | (s1, c1) =>
    match hmutateGo r g gs max_depth fuel s1 (.mnode c1) k with
    | (s2, a2, k2) =>
      match hrelabelGo g.non_terminals fuel s2 (.rlnode a2 1) with
      | (s3, _, _) => (s3, a2, k2)

/-- htree_crossover is tree_crossover of treebased.py on the store: both
directed crossovers, each on fresh deep copies of both parents, each
relabelled in place. -/
def htree_crossover (fuel : Nat) (r : Nat → Nat) (g : Grammar) (gs : GengyState)
    (s : Store) (p1 p2 : Nat) (max_depth : Int) (k : Nat) :
    Store × (Nat × Nat) × Nat :=
  match deepcopyH s p1 with
  | (s1, c1) =>
    match deepcopyH s1 p2 with
    | (s2, c2) =>
      match hcrossoverGo r g gs c2 max_depth fuel s2 (.xnode c1) k with
      | (s3, a1, k1) =>
        match hrelabelGo g.non_terminals fuel s3 (.rlnode a1 1) with
        | (s4, _, _) =>
          match deepcopyH s4 p2 with
          | (s5, c3) =>
            match deepcopyH s5 p1 with
            | (s6, c4) =>
              match hcrossoverGo r g gs c4 max_depth fuel s6 (.xnode c3) k1 with
              | (s7, a2, k2) =>
                match hrelabelGo g.non_terminals fuel s7 (.rlnode a2 1) with
                | (s8, _, _) => (s8, (a1, a2), k2)

/-
Infrastructure for the theorems: structural predicates on trees and
basic lemmas about the embedded operations.
-/

mutual
/-- eraseMeta forgets all stored metadata, leaving the pure structure:
concrete types at every position and primitive values. -/
def eraseMeta : TNode → TNode
  | .prim v => .prim v
  | .ctor c _ ch => .ctor c metaZero (eraseMetaList ch)
/-- eraseMetaList maps eraseMeta over a child list. -/
def eraseMetaList : TNodeList → TNodeList
  | .nil => .nil
  | .cons h t => .cons (eraseMeta h) (eraseMetaList t)
end

/-- nodesContrib is the size contribution of a child in
relabel_nodes_of_trees: builtins contribute 0, class nodes their stored
node count. -/
def nodesContrib : TNode → Nat
  | .prim _ => 0
  | .ctor _ m _ => m.nodes

/-- sumNodes sums the size contributions of a child list. -/
def sumNodes : TNodeList → Nat
  | .nil => 0
  | .cons h t => nodesContrib h + sumNodes t

mutual
/-- ctorHeight is the class-node height of a tree: builtin leaves count
0, a class node one plus the maximum over its children. -/
def ctorHeight : TNode → Nat
  | .prim _ => 0
  | .ctor _ _ ch => 1 + ctorHeightL ch
/-- ctorHeightL is the maximum ctorHeight over a child list. -/
def ctorHeightL : TNodeList → Nat
  | .nil => 0
  | .cons h t => max (ctorHeight h) (ctorHeightL t)
end

mutual
/-- sizesOK states the size-metadata consistency that
relabel_nodes_of_trees establishes: a non-terminal node stores one plus
the sum of its children's contributions, a terminal node stores zero
(its stale children, which relabel does not visit, are unconstrained, a
corner synthesized trees never exhibit since their terminals are
childless). -/
def sizesOK (nts : List Nat) : TNode → Bool
  | .prim _ => true
  | .ctor c m ch =>
    if nts.contains c then (m.nodes == 1 + sumNodes ch) && sizesOKL nts ch
    else m.nodes == 0
/-- sizesOKL checks sizesOK over a child list. -/
def sizesOKL (nts : List Nat) : TNodeList → Bool
  | .nil => true
  | .cons h t => sizesOK nts h && sizesOKL nts t
end

mutual
/-- depthsOK states the depth-metadata consistency that
relabel_nodes_of_trees establishes from a given root depth: every
visited node stores exactly its structural depth, so every visited child
stores its parent's depth plus one. -/
def depthsOK (nts : List Nat) : TNode → Nat → Bool
  | .prim _, _ => true
  | .ctor c m ch, d =>
    if nts.contains c then (m.depth == d) && depthsOKL nts ch (d + 1)
    else m.depth == d
/-- depthsOKL checks depthsOK over a child list at one depth. -/
def depthsOKL (nts : List Nat) : TNodeList → Nat → Bool
  | .nil, _ => true
  | .cons h t, d => depthsOK nts h d && depthsOKL nts t d
end

mutual
/-- ctorDepthsLE bounds every stored depth of the visited nodes by a
budget. -/
def ctorDepthsLE (nts : List Nat) : TNode → Nat → Bool
  | .prim _, _ => true
  | .ctor c m ch, b =>
    if nts.contains c then decide (m.depth ≤ b) && ctorDepthsLEL nts ch b
    else decide (m.depth ≤ b)
/-- ctorDepthsLEL checks ctorDepthsLE over a child list. -/
def ctorDepthsLEL (nts : List Nat) : TNodeList → Nat → Bool
  | .nil, _ => true
  | .cons h t, b => ctorDepthsLE nts h b && ctorDepthsLEL nts t b
end

mutual
/-- claimAllSizes is the size equation exactly as the claim states it,
for every node including terminals: the stored size is one plus the sum
of the children's contributions. -/
def claimAllSizes : TNode → Bool
  | .prim _ => true
  | .ctor _ m ch => (m.nodes == 1 + sumNodes ch) && claimAllSizesL ch
/-- claimAllSizesL checks claimAllSizes over a child list. -/
def claimAllSizesL : TNodeList → Bool
  | .nil => true
  | .cons h t => claimAllSizes h && claimAllSizesL t
end

mutual
theorem deepcopy_eq : ∀ t : TNode, deepcopy t = t
  | .prim _ => by simp [deepcopy]
  | .ctor c m ch => by simp [deepcopy, deepcopyList_eq ch]
theorem deepcopyList_eq : ∀ l : TNodeList, deepcopyList l = l
  | .nil => by simp [deepcopyList]
  | .cons h t => by simp [deepcopyList, deepcopy_eq h, deepcopyList_eq t]
end

mutual
theorem relabel_nodes_spec : ∀ (nts : List Nat) (t : TNode) (d : Nat),
    sizesOK nts (relabel_nodes nts t d).1 = true ∧
    depthsOK nts (relabel_nodes nts t d).1 d = true ∧
    (relabel_nodes nts t d).2.1 = nodesContrib (relabel_nodes nts t d).1 ∧
    eraseMeta (relabel_nodes nts t d).1 = eraseMeta t ∧
    ctorHeight (relabel_nodes nts t d).1 = ctorHeight t
  | nts, .prim v, d => by
    simp [relabel_nodes, sizesOK, depthsOK, nodesContrib, eraseMeta, ctorHeight]
  | nts, .ctor c m ch, d => by
    cases hc : nts.contains c with
    | true =>
      have hm : c ∈ nts := by simpa using hc
      have ih := relabel_children_spec nts ch (d + 1)
      obtain ⟨h1, h2, h3, h4, h5⟩ := ih
      simp only [relabel_nodes, hc, Bool.not_true, Bool.false_eq_true, reduceIte]
      refine ⟨?_, ?_, ?_, ?_, ?_⟩
      · simp [sizesOK, hc, hm, h1, ← h3]
      · simp [depthsOK, hc, hm, h2]
      · simp [nodesContrib]
      · simp [eraseMeta, h4]
      · simp [ctorHeight, h5]
    | false =>
      have hm : c ∉ nts := by simpa using hc
      simp only [relabel_nodes, hc, Bool.not_false, reduceIte]
      refine ⟨?_, ?_, ?_, ?_, ?_⟩
      · simp [sizesOK, hc, hm]
      · simp [depthsOK, hc, hm]
      · simp [nodesContrib]
      · simp [eraseMeta]
      · simp [ctorHeight]
theorem relabel_children_spec : ∀ (nts : List Nat) (l : TNodeList) (d : Nat),
    sizesOKL nts (relabel_children nts l d).1 = true ∧
    depthsOKL nts (relabel_children nts l d).1 d = true ∧
    (relabel_children nts l d).2.1 = sumNodes (relabel_children nts l d).1 ∧
    eraseMetaList (relabel_children nts l d).1 = eraseMetaList l ∧
    ctorHeightL (relabel_children nts l d).1 = ctorHeightL l
  | nts, .nil, d => by
    simp [relabel_children, sizesOKL, depthsOKL, sumNodes, eraseMetaList, ctorHeightL]
  | nts, .cons h t, d => by
    have ih1 := relabel_nodes_spec nts h d
    have ih2 := relabel_children_spec nts t d
    obtain ⟨a1, a2, a3, a4, a5⟩ := ih1
    obtain ⟨b1, b2, b3, b4, b5⟩ := ih2
    simp only [relabel_children]
    refine ⟨?_, ?_, ?_, ?_, ?_⟩
    · simp [sizesOKL, a1, b1]
    · simp [depthsOKL, a2, b2]
    · simp [sumNodes, a3, b3]
    · simp [eraseMetaList, a4, b4]
    · simp [ctorHeightL, a5, b5]
end

mutual
theorem relabel_nodes_depthLE : ∀ (nts : List Nat) (t : TNode) (d B : Nat),
    d + ctorHeight t ≤ B + 1 →
    ctorDepthsLE nts (relabel_nodes nts t d).1 B = true
  | nts, .prim v, d, B => by
    intro _
    simp [relabel_nodes, ctorDepthsLE]
  | nts, .ctor c m ch, d, B => by
    intro hb
    have hdB : d ≤ B := by
      have : 1 ≤ ctorHeight (TNode.ctor c m ch) := by simp [ctorHeight]
      omega
    cases hc : nts.contains c with
    | true =>
      have hch : (d + 1) + ctorHeightL ch ≤ B + 1 := by
        have : ctorHeight (TNode.ctor c m ch) = 1 + ctorHeightL ch := by simp [ctorHeight]
        omega
      have ih := relabel_children_depthLE nts ch (d + 1) B hch
      simp only [relabel_nodes, hc, Bool.not_true, Bool.false_eq_true, reduceIte]
      simp [ctorDepthsLE, hc, ih, hdB]
    | false =>
      have hm : c ∉ nts := by simpa using hc
      simp only [relabel_nodes, hc, Bool.not_false, reduceIte]
      simp [ctorDepthsLE, hc, hm, hdB]
theorem relabel_children_depthLE : ∀ (nts : List Nat) (l : TNodeList) (d B : Nat),
    d + ctorHeightL l ≤ B + 1 →
    ctorDepthsLEL nts (relabel_children nts l d).1 B = true
  | nts, .nil, d, B => by
    intro _
    simp [relabel_children, ctorDepthsLEL]
  | nts, .cons h t, d, B => by
    intro hb
    have h1 : d + ctorHeight h ≤ B + 1 := by
      have : ctorHeightL (TNodeList.cons h t) = max (ctorHeight h) (ctorHeightL t) := by
        simp [ctorHeightL]
      omega
    have h2 : d + ctorHeightL t ≤ B + 1 := by
      have : ctorHeightL (TNodeList.cons h t) = max (ctorHeight h) (ctorHeightL t) := by
        simp [ctorHeightL]
      omega
    have ih1 := relabel_nodes_depthLE nts h d B h1
    have ih2 := relabel_children_depthLE nts t d B h2
    simp only [relabel_children]
    simp [ctorDepthsLEL, ih1, ih2]
end

theorem expand_heightBound (r : Nat → Nat) (g : Grammar) (gs : GengyState)
    (hdist : ∀ s, s ∈ g.symbols → g.isBuiltinOf s = false → 1 ≤ g.distanceToTerminal s) :
    ∀ fuel : Nat,
      (∀ (d : Int) (sym k : Nat) (t : TNode) (k1 : Nat),
        expandGo r g gs fuel (.node d sym) k = (.ok (.tree t), k1) → ctorHeight t ≤ d.toNat) ∧
      (∀ (d : Int) (fs : List Nat) (k : Nat) (ts : TNodeList) (k1 : Nat),
        expandGo r g gs fuel (.fieldsJob d fs) k = (.ok (.trees ts), k1) →
          ctorHeightL ts ≤ d.toNat) := by
  intro fuel
  induction fuel with
  | zero =>
    constructor
    · intro d sym k t k1 h
      simp [expandGo] at h
    · intro d fs k ts k1 h
      simp [expandGo] at h
  | succ fuel ih =>
    obtain ⟨ihn, ihf⟩ := ih
    constructor
    · intro d sym k t k1 h
      simp only [expandGo] at h
      split at h
      · simp at h
      · split at h
        · simp at h
        · split at h
          · simp only [Prod.mk.injEq, Except.ok.injEq, ERes.tree.injEq] at h
            rw [← h.1]
            simp only [ctorHeight]
            rename_i hd0 _ _
            omega
          · split at h
            · simp at h
            · split at h
              · -- concrete production branch
                rename_i hd0 hdd hbu hin hemp
                split at h
                · rename_i ts' k2 hrec
                  simp only [Prod.mk.injEq, Except.ok.injEq, ERes.tree.injEq] at h
                  have hh := ihf (d - 1) (g.fieldsOf sym) k ts' k2 hrec
                  rw [← h.1]
                  simp only [ctorHeight]
                  have hs : sym ∈ g.symbols := by simpa using hin
                  have hb : g.isBuiltinOf sym = false := by
                    simpa using hbu
                  have h1 : 1 ≤ g.distanceToTerminal sym := hdist sym hs hb
                  have h2 : (1 : Int) ≤ d := by
                    simp only [Grammar.get_distance_to_terminal] at hdd
                    omega
                  omega
                · simp at h
                · simp at h
              · -- alternatives branch
                split at h
                · simp at h
                · split at h
                  · exact ihn d _ _ t k1 h
                  · exact ihn d _ _ t k1 h
    · intro d fs k ts k1 h
      match fs with
      | [] =>
        simp only [expandGo, Prod.mk.injEq, Except.ok.injEq, ERes.trees.injEq] at h
        rw [← h.1]
        simp [ctorHeightL]
      | f :: fs' =>
        simp only [expandGo] at h
        split at h
        · rename_i t' k2 hrec1
          split at h
          · rename_i ts' k3 hrec2
            simp only [Prod.mk.injEq, Except.ok.injEq, ERes.trees.injEq] at h
            have h1 := ihn d f k t' k2 hrec1
            have h2 := ihf d fs' k2 ts' k3 hrec2
            rw [← h.1]
            simp only [ctorHeightL]
            omega
          · simp at h
          · simp at h
        · simp at h
        · simp at h

/-- Claim C1, as stated, is false: a successful synthesize call can
return a tree whose root is a terminal node, and relabel_nodes_of_trees
stores size 0 on terminal nodes, not 1 plus the sum of the children's
sizes.  With budget 1 on the Expr grammar, PI_Grow succeeds and returns
the single-terminal tree One with stored size 0, violating the size
equation at that node. -/
theorem claim_C1_counterexample :
    PI_Grow rZero exprG gsNone 1 1 0 =
      (.ok (.ctor 3 ⟨0, 1, 1⟩ .nil), 1) ∧
    claimAllSizes (.ctor 3 ⟨0, 1, 1⟩ .nil) = false := by
  exact ⟨rfl, rfl⟩

/-- Claim C1 (amended): for every tree returned by a successful
synthesize (PI_Grow) call on a grammar whose non-builtin registered
symbols have distance-to-terminal at least one (every preprocessed
grammar does), the derived metadata is consistent: every non-terminal
node's size equals one plus the sum of its children's stored sizes
(builtins contributing zero) while every terminal node's size is zero;
every visited child's depth equals its parent's depth plus one with the
root at depth one; and every stored depth is at most the supplied
budget. -/
theorem claim_C1_amended (r : Nat → Nat) (g : Grammar) (gs : GengyState)
    (budget : Int) (sym k : Nat) (t : TNode) (k1 : Nat)
    (hdist : g.symbols.all
      (fun s => g.isBuiltinOf s || decide (1 ≤ g.distanceToTerminal s)) = true)
    (h : PI_Grow r g gs budget sym k = (.ok t, k1)) :
    sizesOK g.non_terminals t = true ∧
    depthsOK g.non_terminals t 1 = true ∧
    ctorDepthsLE g.non_terminals t budget.toNat = true := by
  have hdist' : ∀ s, s ∈ g.symbols → g.isBuiltinOf s = false →
      1 ≤ g.distanceToTerminal s := by
    intro s hs hb
    have := List.all_eq_true.mp hdist s hs
    simp [hb] at this
    exact this
  simp only [PI_Grow] at h
  split at h
  · rename_i t0 k2 hrec
    simp only [Prod.mk.injEq, Except.ok.injEq] at h
    have hspec := relabel_nodes_spec g.non_terminals t0 1
    have hheight :=
      (expand_heightBound r g gs hdist' (fuelFor g budget)).1 budget sym k t0 k2 hrec
    have hdep := relabel_nodes_depthLE g.non_terminals t0 1 budget.toNat (by omega)
    rw [← h.1]
    exact ⟨hspec.1, hspec.2.1, hdep⟩
  · simp at h
  · simp at h

/-- Witness for claim_C1_amended: the budget-2 synthesis on the Expr
grammar produces Plus(One, One), and the amended metadata consistency
holds on it. -/
theorem claim_C1_witness :
    sizesOK exprG.non_terminals
      (.ctor 2 ⟨1, 1, 2⟩ (.cons (.ctor 3 ⟨0, 2, 1⟩ .nil)
        (.cons (.ctor 3 ⟨0, 2, 1⟩ .nil) .nil))) = true ∧
    depthsOK exprG.non_terminals
      (.ctor 2 ⟨1, 1, 2⟩ (.cons (.ctor 3 ⟨0, 2, 1⟩ .nil)
        (.cons (.ctor 3 ⟨0, 2, 1⟩ .nil) .nil))) 1 = true ∧
    ctorDepthsLE exprG.non_terminals
      (.ctor 2 ⟨1, 1, 2⟩ (.cons (.ctor 3 ⟨0, 2, 1⟩ .nil)
        (.cons (.ctor 3 ⟨0, 2, 1⟩ .nil) .nil))) ((2 : Int)).toNat = true :=
  claim_C1_amended rZero exprG gsNone 2 1 0 _ 3 (by decide) rfl

theorem getD_mem {α : Type} : ∀ (xs : List α) (i : Nat) (d : α), i < xs.length →
    xs.getD i d ∈ xs
  | [], i, d, h => absurd h (by simp)
  | x :: t, 0, d, _ => by simp
  | x :: t, i + 1, d, h => by
    have ih := getD_mem t i d (by simpa using h)
    simp only [List.getD_cons_succ]
    exact List.mem_cons_of_mem x ih

theorem choice_mem (r : Nat → Nat) (k : Nat) (xs : List Nat) (h : xs ≠ []) :
    (choice r k xs).1 ∈ xs := by
  have hl : 0 < xs.length := List.length_pos.mpr h
  exact getD_mem xs ((r k) % xs.length) 0 (Nat.mod_lt _ hl)

theorem wpick_mem : ∀ (xs : List Nat) (ws : List ℚ) (u : ℚ), xs ≠ [] →
    wpick xs ws u ∈ xs
  | [], _, _, h => absurd rfl h
  | [x], ws, u, _ => by
    cases ws with
    | nil => simp [wpick]
    | cons w ws' => simp [wpick]
  | x :: y :: t, [], u, _ => by simp [wpick]
  | x :: y :: t, w :: ws', u, _ => by
    by_cases hu : u < w
    · simp [wpick, hu]
    · have ih := wpick_mem (y :: t) ws' (u - w) (by simp)
      simp only [wpick, hu, reduceIte]
      exact List.mem_cons_of_mem x ih

theorem choice_weighted_mem (r : Nat → Nat) (k : Nat) (xs : List Nat) (ws : List ℚ)
    (h : xs ≠ []) : (choice_weighted r k xs ws).1 ∈ xs :=
  wpick_mem xs ws _ h

theorem filter_choices_mem (g : Grammar) (l : List Nat) (d : Int) :
    ∀ p ∈ filter_choices g l d, p ∈ l ∧ (g.distanceToTerminal p : Int) ≤ d := by
  intro p hp
  simp only [filter_choices] at hp
  split at hp
  · have h1 := (List.mem_filter.mp hp).1
    have h2 := List.mem_filter.mp h1
    exact ⟨h2.1, by simpa using h2.2⟩
  · have h2 := List.mem_filter.mp hp
    exact ⟨h2.1, by simpa using h2.2⟩

/-- Err.budgetDepth extracts the budget argument of the two entry budget
errors, none for every other error. -/
def Err.budgetDepth : Err → Option Int
  | .recursionDepth _ d => some d
  | .depthInsufficient _ d _ => some d
  | _ => none

theorem expand_err_budgetDepth (r : Nat → Nat) (g : Grammar) (gs : GengyState) :
    ∀ fuel : Nat,
      (∀ (d : Int) (sym k : Nat) (e : Err) (k1 : Nat),
        expandGo r g gs fuel (.node d sym) k = (.error e, k1) →
        ∀ d', Err.budgetDepth e = some d' → d' ≤ d) ∧
      (∀ (d : Int) (sym k : Nat) (e : Err) (k1 : Nat), ¬(d < 0) →
        ¬(d < (g.get_distance_to_terminal sym : Int)) →
        expandGo r g gs fuel (.node d sym) k = (.error e, k1) →
        ∀ d', Err.budgetDepth e = some d' → d' < d) ∧
      (∀ (d : Int) (fs : List Nat) (k : Nat) (e : Err) (k1 : Nat),
        expandGo r g gs fuel (.fieldsJob d fs) k = (.error e, k1) →
        ∀ d', Err.budgetDepth e = some d' → d' ≤ d) := by
  intro fuel
  induction fuel with
  | zero =>
    refine ⟨?_, ?_, ?_⟩
    · intro d sym k e k1 h d' hd'
      simp only [expandGo, Prod.mk.injEq, Except.error.injEq] at h
      rw [← h.1] at hd'
      simp [Err.budgetDepth] at hd'
    · intro d sym k e k1 _ _ h d' hd'
      simp only [expandGo, Prod.mk.injEq, Except.error.injEq] at h
      rw [← h.1] at hd'
      simp [Err.budgetDepth] at hd'
    · intro d fs k e k1 h d' hd'
      simp only [expandGo, Prod.mk.injEq, Except.error.injEq] at h
      rw [← h.1] at hd'
      simp [Err.budgetDepth] at hd'
  | succ fuel ih =>
    obtain ⟨iha, ihb, ihc⟩ := ih
    have hb : ∀ (d : Int) (sym k : Nat) (e : Err) (k1 : Nat), ¬(d < 0) →
        ¬(d < (g.get_distance_to_terminal sym : Int)) →
        expandGo r g gs (fuel + 1) (.node d sym) k = (.error e, k1) →
        ∀ d', Err.budgetDepth e = some d' → d' < d := by
      intro d sym k e k1 h0 hdd h d' hd'
      simp only [expandGo] at h
      rw [if_neg h0, if_neg hdd] at h
      split at h
      · simp at h
      · split at h
        · simp only [Prod.mk.injEq, Except.error.injEq] at h
          rw [← h.1] at hd'
          simp [Err.budgetDepth] at hd'
        · split at h
          · -- concrete branch
            split at h
            · simp at h
            · simp only [Prod.mk.injEq, Except.error.injEq] at h
              rw [← h.1] at hd'
              simp [Err.budgetDepth] at hd'
            · rename_i e2 k2 hrec
              simp only [Prod.mk.injEq, Except.error.injEq] at h
              rw [← h.1] at hd'
              have := ihc (d - 1) (g.fieldsOf sym) k e2 k2 hrec d' hd'
              omega
          · -- alternatives branch
            split at h
            · simp only [Prod.mk.injEq, Except.error.injEq] at h
              rw [← h.1] at hd'
              simp [Err.budgetDepth] at hd'
            · rename_i hne
              have hvne : filter_choices g (g.alternatives sym) d ≠ [] := by
                intro hx
                rw [hx] at hne
                simp at hne
              split at h
              · -- weighted rule choice
                rename_i hw
                have hmem := choice_weighted_mem r k
                  (filter_choices g (g.alternatives sym) d)
                  ((filter_choices g (g.alternatives sym) d).map (get_gengy_weight gs)) hvne
                have hrd := (filter_choices_mem g (g.alternatives sym) d _ hmem).2
                exact ihb d _ _ e k1 h0 (by simpa [Grammar.get_distance_to_terminal] using hrd) h d' hd'
              · have hmem := choice_mem r k (filter_choices g (g.alternatives sym) d) hvne
                have hrd := (filter_choices_mem g (g.alternatives sym) d _ hmem).2
                exact ihb d _ _ e k1 h0 (by simpa [Grammar.get_distance_to_terminal] using hrd) h d' hd'
    have ha : ∀ (d : Int) (sym k : Nat) (e : Err) (k1 : Nat),
        expandGo r g gs (fuel + 1) (.node d sym) k = (.error e, k1) →
        ∀ d', Err.budgetDepth e = some d' → d' ≤ d := by
      intro d sym k e k1 h d' hd'
      by_cases h0 : d < 0
      · simp only [expandGo, if_pos h0, Prod.mk.injEq, Except.error.injEq] at h
        rw [← h.1] at hd'
        simp only [Err.budgetDepth, Option.some.injEq] at hd'
        omega
      · by_cases hdd : d < (g.get_distance_to_terminal sym : Int)
        · simp only [expandGo, if_neg h0, if_pos hdd, Prod.mk.injEq,
            Except.error.injEq] at h
          rw [← h.1] at hd'
          simp only [Err.budgetDepth, Option.some.injEq] at hd'
          omega
        · exact le_of_lt (hb d sym k e k1 h0 hdd h d' hd')
    refine ⟨ha, hb, ?_⟩
    intro d fs k e k1 h d' hd'
    match fs with
    | [] =>
      simp only [expandGo] at h
      simp at h
    | f :: fs' =>
      simp only [expandGo] at h
      split at h
      · split at h
        · simp at h
        · simp only [Prod.mk.injEq, Except.error.injEq] at h
          rw [← h.1] at hd'
          simp [Err.budgetDepth] at hd'
        · rename_i e2 k2 hrec
          simp only [Prod.mk.injEq, Except.error.injEq] at h
          rw [← h.1] at hd'
          exact ihc d fs' _ e2 k2 hrec d' hd'
      · simp only [Prod.mk.injEq, Except.error.injEq] at h
        rw [← h.1] at hd'
        simp [Err.budgetDepth] at hd'
      · rename_i e2 k2 hrec
        simp only [Prod.mk.injEq, Except.error.injEq] at h
        rw [← h.1] at hd'
        exact iha d f k e2 k2 hrec d' hd'

/-- Claim C2: expand_node raises a typed error at entry, before
constructing any node, exactly when the budget is negative (Recursion
Depth reached) or strictly below the requested symbol's
distance-to-terminal (no sufficient depth); otherwise the call never
produces either budget error for this symbol and budget: every budget
error propagated from inside the expansion carries a strictly smaller
budget, so it stems from a recursive entry check, not from this one. -/
theorem claim_C2 (r : Nat → Nat) (g : Grammar) (gs : GengyState) (fuel : Nat)
    (d : Int) (sym k : Nat) :
    (d < 0 →
      expandGo r g gs (fuel + 1) (.node d sym) k = (.error (.recursionDepth sym d), k)) ∧
    (¬(d < 0) → d < (g.get_distance_to_terminal sym : Int) →
      expandGo r g gs (fuel + 1) (.node d sym) k =
        (.error (.depthInsufficient sym d (g.get_distance_to_terminal sym)), k)) ∧
    (¬(d < 0) → ¬(d < (g.get_distance_to_terminal sym : Int)) →
      ∀ (e : Err) (k1 : Nat),
        expandGo r g gs (fuel + 1) (.node d sym) k = (.error e, k1) →
        e ≠ .recursionDepth sym d ∧ ∀ req, e ≠ .depthInsufficient sym d req) := by
  refine ⟨?_, ?_, ?_⟩
  · intro hd
    simp only [expandGo]
    rw [if_pos hd]
  · intro h0 hdd
    simp only [expandGo]
    rw [if_neg h0, if_pos hdd]
  · intro h0 hdd e k1 h
    have hb := (expand_err_budgetDepth r g gs (fuel + 1)).2.1 d sym k e k1 h0 hdd h
    constructor
    · intro heq
      rw [heq] at hb
      have := hb d (by simp [Err.budgetDepth])
      omega
    · intro req heq
      rw [heq] at hb
      have := hb d (by simp [Err.budgetDepth])
      omega

/-- Witness for claim_C2: on the Expr grammar, a negative budget raises
the recursion-depth error at entry, and budget 0 below the starting
symbol's distance 1 raises the insufficient-depth error at entry, in
both cases with no draw consumed. -/
theorem claim_C2_witness :
    expandGo rZero exprG gsNone 5 (.node (-1) 1) 0 =
      (.error (.recursionDepth 1 (-1)), 0) ∧
    expandGo rZero exprG gsNone 5 (.node 0 1) 0 =
      (.error (.depthInsufficient 1 0 (exprG.get_distance_to_terminal 1)), 0) :=
  ⟨(claim_C2 rZero exprG gsNone 4 (-1) 1 0).1 (by decide),
   (claim_C2 rZero exprG gsNone 4 0 1 0).2.1 (by decide) (by decide)⟩

/-- distEquationRHS is the right-hand side of the fixpoint equations the
claim states, at the 1000000 sentinel standing for infinity (saturating
arithmetic): an abstract symbol takes the minimum over its alternatives
of the expansion step plus the alternative's distance; a terminal takes
0 for a builtin without expansion depthing and 1 otherwise; a concrete
non-terminal takes one plus the maximum over its fields of the field
type's distance, capped at the sentinel. -/
def distEquationRHS (g : Grammar) (d : Nat → Nat) (s : Nat) : Nat :=
  if g.isAbstractOf s then
    ((g.alternatives s).map (fun p => expansionStep g + d p)).foldr min 1000000
  else if isTerminalSym g s then
    (if g.isBuiltinOf s && !g.expansion_depthing then 0 else 1)
  else min 1000000 ((g.fieldsOf s).foldl (fun acc argt => max acc (1 + d argt)) 0)

theorem foldl_min_le_init (f : Nat → Nat) : ∀ (l : List Nat) (b : Nat),
    l.foldl (fun a p => min a (f p)) b ≤ b
  | [], b => le_refl b
  | p :: t, b => by
    have ih := foldl_min_le_init f t (min b (f p))
    simp only [List.foldl]
    omega

theorem passVal_le (g : Grammar) (d : Nat → Nat) (s : Nat) : passVal g d s ≤ d s := by
  simp only [passVal]
  split
  · exact foldl_min_le_init _ _ _
  · split
    · exact min_le_left _ _
    · exact min_le_left _ _

theorem foldl_min_eq_foldr (f : Nat → Nat) : ∀ (l : List Nat) (b : Nat), b ≤ 1000000 →
    l.foldl (fun a p => min a (f p)) b = min b ((l.map f).foldr min 1000000)
  | [], b, hb => by simp; omega
  | p :: t, b, hb => by
    have ih := foldl_min_eq_foldr f t (min b (f p)) (by omega)
    simp only [List.foldl, List.map, List.foldr]
    rw [ih]
    omega

theorem foldl_min_mono (f1 f2 : Nat → Nat) : ∀ (l : List Nat) (b1 b2 : Nat),
    b1 ≤ b2 → (∀ p ∈ l, f1 p ≤ f2 p) →
    l.foldl (fun a p => min a (f1 p)) b1 ≤ l.foldl (fun a p => min a (f2 p)) b2
  | [], b1, b2, hb, _ => hb
  | p :: t, b1, b2, hb, hf => by
    have hp := hf p (by simp)
    have ih := foldl_min_mono f1 f2 t (min b1 (f1 p)) (min b2 (f2 p)) (by omega)
      (fun q hq => hf q (List.mem_cons_of_mem p hq))
    simpa using ih

theorem foldr_min_mono (f1 f2 : Nat → Nat) : ∀ (l : List Nat),
    (∀ p ∈ l, f1 p ≤ f2 p) →
    (l.map f1).foldr min 1000000 ≤ (l.map f2).foldr min 1000000
  | [], _ => le_refl _
  | p :: t, hf => by
    have hp := hf p (by simp)
    have ih := foldr_min_mono f1 f2 t (fun q hq => hf q (List.mem_cons_of_mem p hq))
    simp only [List.map, List.foldr]
    omega

theorem foldl_max_mono (f1 f2 : Nat → Nat) : ∀ (l : List Nat) (b1 b2 : Nat),
    b1 ≤ b2 → (∀ p ∈ l, f1 p ≤ f2 p) →
    l.foldl (fun a p => max a (f1 p)) b1 ≤ l.foldl (fun a p => max a (f2 p)) b2
  | [], b1, b2, hb, _ => hb
  | p :: t, b1, b2, hb, hf => by
    have hp := hf p (by simp)
    have ih := foldl_max_mono f1 f2 t (max b1 (f1 p)) (max b2 (f2 p)) (by omega)
      (fun q hq => hf q (List.mem_cons_of_mem p hq))
    simpa using ih

theorem distEquationRHS_mono (g : Grammar) (d1 d2 : Nat → Nat)
    (h : ∀ x, d1 x ≤ d2 x) (s : Nat) :
    distEquationRHS g d1 s ≤ distEquationRHS g d2 s := by
  simp only [distEquationRHS]
  split
  · exact foldr_min_mono _ _ _ (fun p _ => by have := h p; omega)
  · split
    · exact le_refl _
    · have h2 := foldl_max_mono (fun argt => 1 + d1 argt) (fun argt => 1 + d2 argt)
        (g.fieldsOf s) 0 0 (le_refl 0) (fun p _ => by simpa using Nat.add_le_add_left (h p) 1)
      simp only at h2
      omega

/-- dBnd: every registered symbol's distance is at most the sentinel. -/
def dBnd (g : Grammar) (d : Nat → Nat) : Prop :=
  ∀ s ∈ g.symbols, d s ≤ 1000000

/-- dInv is the history invariant of the fixpoint loop: every registered
symbol is still at the sentinel or already at most one recomputation
away from below, which pins the loop's limit to the claimed
equations. -/
def dInv (g : Grammar) (d : Nat → Nat) : Prop :=
  ∀ s ∈ g.symbols, d s = 1000000 ∨ distEquationRHS g d s ≤ d s

theorem passVal_eq (g : Grammar) (d : Nat → Nat) (s : Nat) (hb : d s ≤ 1000000) :
    passVal g d s = min (d s) (distEquationRHS g d s) := by
  simp only [passVal, distEquationRHS]
  split
  · exact foldl_min_eq_foldr _ _ _ hb
  · split
    · rfl
    · omega

theorem passVal_mono (g : Grammar) (d1 d2 : Nat → Nat) (h : ∀ x, d1 x ≤ d2 x)
    (s : Nat) : passVal g d1 s ≤ passVal g d2 s := by
  simp only [passVal]
  split
  · exact foldl_min_mono _ _ _ _ _ (h s) (fun p _ => by have := h p; omega)
  · split
    · have := h s
      omega
    · have h2 := foldl_max_mono (fun argt => 1 + d1 argt) (fun argt => 1 + d2 argt)
        (g.fieldsOf s) 0 0 (le_refl 0) (fun p _ => by simpa using Nat.add_le_add_left (h p) 1)
      simp only at h2
      have := h s
      omega

theorem updD_le (g : Grammar) (d : Nat → Nat) (s : Nat) : ∀ x, updD g d s x ≤ d x := by
  intro x
  simp only [updD]
  split
  · rename_i hx
    subst hx
    exact passVal_le g d x
  · exact le_refl _

theorem updD_pres (g : Grammar) (d : Nat → Nat) (sym : Nat) (hB : dBnd g d)
    (hI : dInv g d) : dBnd g (updD g d sym) ∧ dInv g (updD g d sym) := by
  have hle := updD_le g d sym
  constructor
  · intro s hs
    exact le_trans (hle s) (hB s hs)
  · intro s hs
    by_cases hx : s = sym
    · subst hx
      have hbs : d s ≤ 1000000 := hB s hs
      have hpv := passVal_eq g d s hbs
      have hvv : updD g d s s = passVal g d s := by simp [updD]
      rcases hI s hs with h1M | hRle
      · by_cases hlt : distEquationRHS g d s < d s
        · right
          have hv2 : updD g d s s = distEquationRHS g d s := by rw [hvv, hpv]; omega
          rw [hv2]
          exact distEquationRHS_mono g _ d hle s
        · left
          rw [hvv, hpv]
          omega
      · right
        have hv2 : updD g d s s = distEquationRHS g d s := by rw [hvv, hpv]; omega
        rw [hv2]
        exact distEquationRHS_mono g _ d hle s
    · have hvs : updD g d sym s = d s := by simp [updD, hx]
      rcases hI s hs with h1M | hRle
      · left
        rw [hvs]
        exact h1M
      · right
        have := distEquationRHS_mono g _ d hle s
        rw [hvs]
        omega

theorem foldl_updD_le (g : Grammar) : ∀ (l : List Nat) (d : Nat → Nat) (x : Nat),
    l.foldl (updD g) d x ≤ d x
  | [], _, _ => le_refl _
  | s :: t, d, x => le_trans (foldl_updD_le g t (updD g d s) x) (updD_le g d s x)

theorem foldl_updD_pres (g : Grammar) : ∀ (l : List Nat) (d : Nat → Nat),
    dBnd g d → dInv g d → dBnd g (l.foldl (updD g) d) ∧ dInv g (l.foldl (updD g) d)
  | [], d, hB, hI => ⟨hB, hI⟩
  | s :: t, d, hB, hI => by
    have h1 := updD_pres g d s hB hI
    exact foldl_updD_pres g t (updD g d s) h1.1 h1.2

theorem foldl_updD_at_mem (g : Grammar) : ∀ (l : List Nat) (d : Nat → Nat) (s : Nat),
    s ∈ l → l.foldl (updD g) d s ≤ passVal g d s
  | [], _, _, hs => absurd hs (by simp)
  | hd :: t, d, s, hs => by
    by_cases hx : s = hd
    · subst hx
      have h1 : updD g d s s = passVal g d s := by simp [updD]
      have h2 := foldl_updD_le g t (updD g d s) s
      rw [h1] at h2
      exact h2
    · have hmem : s ∈ t := by
        rcases List.mem_cons.mp hs with h | h
        · exact absurd h hx
        · exact h
      have ih := foldl_updD_at_mem g t (updD g d hd) s hmem
      exact le_trans ih (passVal_mono g _ d (updD_le g d hd) s)

theorem iterate_pres (g : Grammar) : ∀ (fuel : Nat) (d : Nat → Nat),
    dBnd g d → dInv g d →
    dBnd g (distIterate g fuel d) ∧ dInv g (distIterate g fuel d)
  | 0, d, hB, hI => ⟨hB, hI⟩
  | fuel + 1, d, hB, hI => by
    simp only [distIterate]
    split
    · exact ⟨hB, hI⟩
    · have hp := foldl_updD_pres g g.symbols d hB hI
      exact iterate_pres g fuel _ hp.1 hp.2

theorem map_sum_le (f1 f2 : Nat → Nat) : ∀ (l : List Nat),
    (∀ x ∈ l, f1 x ≤ f2 x) → (l.map f1).sum ≤ (l.map f2).sum
  | [], _ => le_refl _
  | x :: t, hle => by
    simp only [List.map, List.sum_cons]
    have h1 := hle x (by simp)
    have h2 := map_sum_le f1 f2 t (fun z hz => hle z (List.mem_cons_of_mem x hz))
    omega

theorem map_sum_lt (f1 f2 : Nat → Nat) : ∀ (l : List Nat),
    (∀ x ∈ l, f1 x ≤ f2 x) → (∃ x ∈ l, f1 x < f2 x) →
    (l.map f1).sum < (l.map f2).sum
  | [], _, hx => by simp at hx
  | x :: t, hle, hx => by
    simp only [List.map, List.sum_cons]
    rcases hx with ⟨y, hy, hylt⟩
    rcases List.mem_cons.mp hy with h | h
    · have h2 := map_sum_le f1 f2 t (fun z hz => hle z (List.mem_cons_of_mem x hz))
      subst h
      omega
    · have h1 := hle x (by simp)
      have h2 := map_sum_lt f1 f2 t
        (fun z hz => hle z (List.mem_cons_of_mem x hz)) ⟨y, h, hylt⟩
      omega

theorem pass_decreases (g : Grammar) (d : Nat → Nat) (h : distStable g d = false) :
    distSum g (preprocess_pass g d) < distSum g d := by
  have hex : ∃ s ∈ g.symbols, passVal g d s < d s := by
    by_contra hx
    push_neg at hx
    have : distStable g d = true := by
      apply List.all_eq_true.mpr
      intro s hs
      have h1 := passVal_le g d s
      have h2 := hx s hs
      have : passVal g d s = d s := by omega
      simpa using this
    rw [this] at h
    exact absurd h (by simp)
  rcases hex with ⟨s0, hs0, hlt⟩
  apply map_sum_lt
  · intro x _
    exact foldl_updD_le g g.symbols d x
  · exact ⟨s0, hs0, lt_of_le_of_lt (foldl_updD_at_mem g g.symbols d s0 hs0) hlt⟩

theorem iterate_stable (g : Grammar) : ∀ (fuel : Nat) (d : Nat → Nat),
    distSum g d < fuel → distStable g (distIterate g fuel d) = true
  | 0, d, h => absurd h (by omega)
  | fuel + 1, d, h => by
    simp only [distIterate]
    split
    · rename_i hst
      exact hst
    · rename_i hst
      have hfalse : distStable g d = false := by
        cases hq : distStable g d with
        | true => exact absurd hq hst
        | false => rfl
      have hdec := pass_decreases g d hfalse
      exact iterate_stable g fuel _ (by omega)

theorem initDist_bnd (g : Grammar) : dBnd g (initDist g) := by
  intro s hs
  simp [initDist, hs]

theorem initDist_inv (g : Grammar) : dInv g (initDist g) := by
  intro s hs
  left
  simp [initDist, hs]

theorem distEquationRHS_le (g : Grammar) (d : Nat → Nat) (s : Nat) :
    distEquationRHS g d s ≤ 1000000 := by
  simp only [distEquationRHS]
  split
  · induction (g.alternatives s).map (fun p => expansionStep g + d p) with
    | nil => simp
    | cons x t iht =>
      simp only [List.foldr]
      omega
  · split
    · split <;> omega
    · omega

/-- Claim C3: after preprocess converges, the distance-to-terminal map
satisfies the fixpoint equations on every registered symbol, with the
1000000 sentinel standing for infinity in saturating arithmetic: builtins
without expansion depthing have distance 0 and other terminals 1, an
abstract symbol's distance is the minimum over its alternatives of the
expansion step plus the alternative's distance, and a concrete
non-terminal's distance is one plus the maximum over its fields of the
field type's distance. -/
theorem claim_C3 (g : Grammar) (s : Nat) (hs : s ∈ g.symbols) :
    (preprocess g).distanceToTerminal s =
      distEquationRHS g ((preprocess g).distanceToTerminal) s := by
  have hstable := iterate_stable g (distSum g (initDist g) + 1) (initDist g) (by omega)
  have hpres := iterate_pres g (distSum g (initDist g) + 1) (initDist g)
    (initDist_bnd g) (initDist_inv g)
  have hDdef : (preprocess g).distanceToTerminal =
      distIterate g (distSum g (initDist g) + 1) (initDist g) := rfl
  rw [hDdef]
  set D := distIterate g (distSum g (initDist g) + 1) (initDist g) with hD
  have hpass : passVal g D s = D s := by
    have := List.all_eq_true.mp hstable s hs
    simpa using this
  have hBs : D s ≤ 1000000 := hpres.1 s hs
  have hpv := passVal_eq g D s hBs
  have hRb := distEquationRHS_le g D s
  rcases hpres.2 s hs with h1M | hRle
  · omega
  · omega

/-- Witness for claim_C3: the fixpoint equation holds for the Plus
production of the Expr grammar, whose computed distance is 2. -/
theorem claim_C3_witness :
    (preprocess (buildGrammar exprDesc)).distanceToTerminal 2 =
      distEquationRHS (buildGrammar exprDesc)
        ((preprocess (buildGrammar exprDesc)).distanceToTerminal) 2 ∧
    (preprocess (buildGrammar exprDesc)).distanceToTerminal 2 = 2 :=
  ⟨claim_C3 (buildGrammar exprDesc) 2 (by decide), rfl⟩

/-- exceptIsErr tests whether an expansion outcome is an error. -/
def exceptIsErr : Except Err ERes → Bool
  | .error _ => true
  | .ok _ => false

theorem loop_expand_err (r : Nat → Nat) (gs : GengyState) :
    ∀ (fuel : Nat) (d : Int) (k : Nat),
      exceptIsErr (expandGo r loopG gs fuel (.node d 10) k).1 = true ∧
      exceptIsErr (expandGo r loopG gs fuel (.node d 11) k).1 = true ∧
      exceptIsErr (expandGo r loopG gs fuel (.fieldsJob d [10]) k).1 = true := by
  intro fuel
  induction fuel with
  | zero =>
    intro d k
    refine ⟨?_, ?_, ?_⟩ <;> simp [expandGo, exceptIsErr]
  | succ fuel ih =>
    intro d k
    refine ⟨?_, ?_, ?_⟩
    · by_cases hd : d < 0
      · simp [expandGo, hd, exceptIsErr]
      · by_cases hdd : d < (loopG.get_distance_to_terminal 10 : Int)
        · simp only [expandGo, if_neg hd, if_pos hdd]
          simp [exceptIsErr]
        · have hdist : loopG.get_distance_to_terminal 10 = 1000000 := rfl
          have hge : (1000000 : Int) ≤ d := by rw [hdist] at hdd; omega
          have hfilter : filter_choices loopG (loopG.alternatives 10) d = [11] := by
            have halt : loopG.alternatives 10 = [11] := rfl
            have hd11 : ((loopG.distanceToTerminal 11 : Nat) : Int) ≤ d := by
              have hx : loopG.distanceToTerminal 11 = 1000000 := rfl
              rw [hx]
              exact_mod_cast hge
            have hmem : 11 ∈ loopG.recursive_prods := by decide
            simp [filter_choices, halt, hd11, hmem]
          simp only [expandGo, if_neg hd, if_neg hdd]
          have hbu : loopG.isBuiltinOf 10 = false := rfl
          have hco : loopG.symbols.contains 10 = true := rfl
          have hne : (loopG.alternatives 10).isEmpty = false := rfl
          rw [hbu, hco, hne, hfilter]
          have hie : ([11] : List Nat).isEmpty = false := rfl
          rw [hie]
          simp only [Bool.false_eq_true, reduceIte, Bool.not_true]
          split
          · have hrule : (choice_weighted r k [11] (List.map (get_gengy_weight gs) [11])).1 = 11 := by
              simp [choice_weighted, wpick]
            rw [hrule]
            exact (ih d _).2.1
          · have hrule : (choice r k [11]).1 = 11 := by
              simp [choice, Nat.mod_one]
            rw [hrule]
            exact (ih d _).2.1
    · by_cases hd : d < 0
      · simp [expandGo, hd, exceptIsErr]
      · by_cases hdd : d < (loopG.get_distance_to_terminal 11 : Int)
        · simp only [expandGo, if_neg hd, if_pos hdd]
          simp [exceptIsErr]
        · simp only [expandGo, if_neg hd, if_neg hdd]
          have hbu : loopG.isBuiltinOf 11 = false := rfl
          have hco : loopG.symbols.contains 11 = true := rfl
          have hemp : (loopG.alternatives 11).isEmpty = true := rfl
          have hf : loopG.fieldsOf 11 = [10] := rfl
          rw [hbu, hco, hemp, hf]
          simp only [Bool.false_eq_true, reduceIte, Bool.not_true]
          have hrec := (ih (d - 1) k).2.2
          cases hcase : expandGo r loopG gs fuel (.fieldsJob (d - 1) [10]) k with
          | mk res k1 =>
            rw [hcase] at hrec
            cases res with
            | ok v => simp [exceptIsErr] at hrec
            | error e => simp [exceptIsErr]
    · have hrec := (ih d k).1
      simp only [expandGo]
      cases hcase : expandGo r loopG gs fuel (.node d 10) k with
      | mk res k1 =>
        rw [hcase] at hrec
        cases res with
        | ok v => simp [exceptIsErr] at hrec
        | error e => simp [exceptIsErr]

/-- Claim C4, as stated, is false: extract_grammar succeeds, with no
diagnostic, on a grammar whose starting symbol keeps the infinite
(1000000 sentinel) distance-to-terminal after preprocessing; no error is
raised at grammar-validation or construction time. -/
theorem claim_C4_counterexample :
    extract_grammar gsNone loopDesc = .ok (loopG, gsNone) ∧
    loopG.get_min_tree_depth = 1000000 :=
  ⟨rfl, rfl⟩

/-- Claim C4 (amended): the diagnostic for a starting symbol with
infinite distance is raised at individual-creation time, not at grammar
construction: on the loop grammar, every random_individual call fails,
with the explicit sentinel diagnostic whenever the requested depth is
below the sentinel, and no call loops forever (every synthesis attempt
terminates in an error). -/
theorem claim_C4_amended (r : Nat → Nat) (gs : GengyState) (maxd : Int) (k : Nat) :
    (maxd < 1000000 →
      random_individual r loopG gs maxd k = (.error .minTreeDepthSentinel, k)) ∧
    ∃ (e : Err) (k1 : Nat), random_individual r loopG gs maxd k = (.error e, k1) := by
  have hmin : loopG.get_min_tree_depth = 1000000 := rfl
  constructor
  · intro hlt
    simp only [random_individual, hmin, reduceIte]
    have hc2 : maxd < ((1000000 : Nat) : Int) := by exact_mod_cast hlt
    rw [if_pos hc2]
  · by_cases hm : maxd < 1000000
    · refine ⟨.minTreeDepthSentinel, k, ?_⟩
      simp only [random_individual, hmin, reduceIte]
      have hc2 : maxd < ((1000000 : Nat) : Int) := by exact_mod_cast hm
      rw [if_pos hc2]
    · have hcond : ¬(maxd < (loopG.get_min_tree_depth : Int)) := by rw [hmin]; omega
      have herr := (loop_expand_err r gs (fuelFor loopG maxd) maxd k).1
      simp only [random_individual, if_neg hcond]
      have hstart : loopG.starting_symbol = 10 := rfl
      rw [hstart]
      simp only [random_node, PI_Grow]
      cases hcase : expandGo r loopG gs (fuelFor loopG maxd) (.node maxd 10) k with
      | mk res k1 =>
        rw [hcase] at herr
        cases res with
        | ok v => simp [exceptIsErr] at herr
        | error e => exact ⟨e, k1, rfl⟩

/-- Witness for claim_C4_amended: with the usual depth 5 the loop
grammar's individual creation fails with the sentinel diagnostic. -/
theorem claim_C4_witness :
    random_individual rZero loopG gsNone 5 0 = (.error .minTreeDepthSentinel, 0) :=
  (claim_C4_amended rZero gsNone 5 0).1 (by omega)

/-- getChild indexes a child list. -/
def getChild : TNodeList → Nat → Option TNode
  | .nil, _ => none
  | .cons h _, 0 => some h
  | .cons _ t, i + 1 => getChild t i

/-- setChild replaces one entry of a child list. -/
def setChild : TNodeList → Nat → TNode → TNodeList
  | .nil, _, _ => .nil
  | .cons _ t, 0, v => .cons v t
  | .cons h t, i + 1, v => .cons h (setChild t i v)

/-- subtreeAt resolves a path of child indices. -/
def subtreeAt : TNode → List Nat → Option TNode
  | t, [] => some t
  | .prim _, _ :: _ => none
  | .ctor _ _ ch, i :: p =>
    match getChild ch i with
    | some c => subtreeAt c p
    | none => none

/-- replaceAt replaces the subtree at a path. -/
def replaceAt : TNode → List Nat → TNode → TNode
  | _, [], sub => sub
  | .prim v, _ :: _, _ => .prim v
  | .ctor c m ch, i :: p, sub =>
    match getChild ch i with
    | some cc => .ctor c m (setChild ch i (replaceAt cc p sub))
    | none => .ctor c m ch

/-- MutateSplice i maxd t states that t is i with exactly one subtree
replaced by a successfully resynthesized tree of that subtree's declared
supertype at the local budget, the only structural edit mutate ever
performs. -/
def MutateSplice (r : Nat → Nat) (g : Grammar) (gs : GengyState) (i : TNode)
    (maxd : Int) (t : TNode) : Prop :=
  ∃ (p : List Nat) (c : Nat) (m : Meta) (ch : TNodeList) (ty : Nat) (sub : TNode)
    (k0 k1 : Nat),
    subtreeAt i p = some (.ctor c m ch) ∧ g.parentOf c = some ty ∧
    random_node r g gs (maxd - (m.depth : Int) + 1) ty k0 = (.ok sub, k1) ∧
    t = replaceAt i p sub

mutual
theorem mutate_inner_shape : ∀ (r : Nat → Nat) (g : Grammar) (gs : GengyState)
    (maxd : Int) (i : TNode) (k : Nat),
    (mutate_inner r g gs i maxd k).1 = i ∨
    MutateSplice r g gs i maxd ((mutate_inner r g gs i maxd k).1)
  | r, g, gs, maxd, .prim v, k => by
    left
    simp [mutate_inner]
  | r, g, gs, maxd, .ctor c0 m ch, k => by
    by_cases hn : 0 < m.nodes
    · by_cases hz : (randint r k 0 ((m.nodes : Int) - 1)).1 = 0
      · cases hp : g.parentOf c0 with
        | none =>
          left
          simp [mutate_inner, hn, hz, hp]
        | some ty =>
          cases hr : random_node r g gs (maxd - (m.depth : Int) + 1) ty
              (randint r k 0 ((m.nodes : Int) - 1)).2 with
          | mk res k2 =>
            cases res with
            | ok sub =>
              right
              have hres : (mutate_inner r g gs (.ctor c0 m ch) maxd k).1 = sub := by
                simp [mutate_inner, hn, hz, hp, hr]
              rw [hres]
              exact ⟨[], c0, m, ch, ty, sub, _, k2, by simp [subtreeAt], hp, hr,
                by simp [replaceAt]⟩
            | error e =>
              left
              simp [mutate_inner, hn, hz, hp, hr]
      · cases hw : mutate_walk r g gs ch (randint r k 0 ((m.nodes : Int) - 1)).1 maxd
            (randint r k 0 ((m.nodes : Int) - 1)).2 with
        | mk ch' k2 =>
          have hres : (mutate_inner r g gs (.ctor c0 m ch) maxd k).1 = .ctor c0 m ch' := by
            simp [mutate_inner, hn, hz, hw]
          have ihw := mutate_walk_shape r g gs maxd ch
            (randint r k 0 ((m.nodes : Int) - 1)).1
            (randint r k 0 ((m.nodes : Int) - 1)).2
          rw [hw] at ihw
          rcases ihw with hl | ⟨j, cc, t', hg, hsp, hset⟩
          · left
            rw [hres]
            simp only at hl
            rw [hl]
          · right
            rw [hres]
            obtain ⟨p', c', m', ch2, ty, sub, k0, k1, hsub, hpar, hrand, hrep⟩ := hsp
            refine ⟨j :: p', c', m', ch2, ty, sub, k0, k1, ?_, hpar, hrand, ?_⟩
            · simp [subtreeAt, hg, hsub]
            · simp only at hset
              rw [hset, hrep]
              simp [replaceAt, hg]
    · left
      simp [mutate_inner, hn]
theorem mutate_walk_shape : ∀ (r : Nat → Nat) (g : Grammar) (gs : GengyState)
    (maxd : Int) (ch : TNodeList) (c : Int) (k : Nat),
    (mutate_walk r g gs ch c maxd k).1 = ch ∨
    ∃ (j : Nat) (cc t' : TNode), getChild ch j = some cc ∧
      MutateSplice r g gs cc maxd t' ∧
      (mutate_walk r g gs ch c maxd k).1 = setChild ch j t'
  | r, g, gs, maxd, .nil, c, k => by
    left
    simp [mutate_walk]
  | r, g, gs, maxd, .cons hd tl, c, k => by
    match hhd : hd with
    | .prim v =>
      cases hw : mutate_walk r g gs tl c maxd k with
      | mk tl' k1 =>
        have hres : (mutate_walk r g gs (.cons (.prim v) tl) c maxd k).1 =
            .cons (.prim v) tl' := by
          simp [mutate_walk, hw]
        have ih := mutate_walk_shape r g gs maxd tl c k
        rw [hw] at ih
        rcases ih with hl | ⟨j, cc, t', hg, hsp, hset⟩
        · left
          rw [hres]
          simp only at hl
          rw [hl]
        · right
          refine ⟨j + 1, cc, t', by simpa [getChild] using hg, hsp, ?_⟩
          rw [hres]
          simp only at hset
          rw [hset]
          simp [setChild]
    | .ctor c2 m2 ch2 =>
      by_cases hcle : c ≤ (m2.nodes : Int)
      · cases hm : mutate_inner r g gs (.ctor c2 m2 ch2) maxd k with
        | mk hd' k1 =>
          have hres : (mutate_walk r g gs (.cons (.ctor c2 m2 ch2) tl) c maxd k).1 =
              .cons hd' tl := by
            simp [mutate_walk, hcle, hm]
          have ih := mutate_inner_shape r g gs maxd (.ctor c2 m2 ch2) k
          rw [hm] at ih
          rcases ih with hl | hsp
          · left
            rw [hres]
            simp only at hl
            rw [hl]
          · right
            refine ⟨0, .ctor c2 m2 ch2, hd', by simp [getChild], hsp, ?_⟩
            rw [hres]
            simp [setChild]
      · cases hw : mutate_walk r g gs tl (c - (m2.nodes : Int)) maxd k with
        | mk tl' k1 =>
          have hres : (mutate_walk r g gs (.cons (.ctor c2 m2 ch2) tl) c maxd k).1 =
              .cons (.ctor c2 m2 ch2) tl' := by
            simp [mutate_walk, hcle, hw]
          have ih := mutate_walk_shape r g gs maxd tl (c - (m2.nodes : Int)) k
          rw [hw] at ih
          rcases ih with hl | ⟨j, cc, t', hg, hsp, hset⟩
          · left
            rw [hres]
            simp only at hl
            rw [hl]
          · right
            refine ⟨j + 1, cc, t', by simpa [getChild] using hg, hsp, ?_⟩
            rw [hres]
            simp only at hset
            rw [hset]
            simp [setChild]
end

/-- Claim C5: mutate always returns a tree: its result is structurally
either the input unchanged or the input with exactly one subtree
replaced by a successful resynthesis of that subtree's declared
supertype at the local budget; and when the resynthesis at the chosen
position fails, the local edit is a no-op: the result is exactly the
relabelled original, the failure never propagating out of mutate. -/
theorem claim_C5 (r : Nat → Nat) (g : Grammar) (gs : GengyState) (i : TNode)
    (maxd : Int) (k : Nat) :
    (∃ (t : TNode) (k1 : Nat), mutate r g gs i maxd k = (t, k1) ∧
      (eraseMeta t = eraseMeta i ∨
       ∃ t0, MutateSplice r g gs i maxd t0 ∧ eraseMeta t = eraseMeta t0)) ∧
    (∀ (c0 : Nat) (m : Meta) (ch : TNodeList) (ty : Nat) (e : Err) (k2 : Nat),
      i = .ctor c0 m ch → 0 < m.nodes →
      (randint r k 0 ((m.nodes : Int) - 1)).1 = 0 →
      g.parentOf c0 = some ty →
      random_node r g gs (maxd - (m.depth : Int) + 1) ty
        (randint r k 0 ((m.nodes : Int) - 1)).2 = (.error e, k2) →
      mutate r g gs i maxd k = (relabel_nodes_of_trees i g.non_terminals 1, k2)) := by
  constructor
  · cases hm : mutate_inner r g gs (deepcopy i) maxd k with
    | mk t0 k1 =>
      rw [deepcopy_eq] at hm
      have hmut : mutate r g gs i maxd k =
          (relabel_nodes_of_trees t0 g.non_terminals 1, k1) := by
        simp [mutate, deepcopy_eq, hm]
      have hshape := mutate_inner_shape r g gs maxd i k
      rw [hm] at hshape
      have herase := (relabel_nodes_spec g.non_terminals t0 1).2.2.2.1
      refine ⟨relabel_nodes_of_trees t0 g.non_terminals 1, k1, hmut, ?_⟩
      simp only at hshape
      rcases hshape with hl | hsp
      · left
        exact herase.trans (congrArg eraseMeta hl)
      · right
        exact ⟨t0, hsp, herase⟩
  · intro c0 m ch ty e k2 hi hn hz hp hr
    subst hi
    have hinner : mutate_inner r g gs (.ctor c0 m ch) maxd k = (.ctor c0 m ch, k2) := by
      simp [mutate_inner, hn, hz, hp, hr]
    simp [mutate, deepcopy_eq, hinner]

/-- Witness for claim_C5: mutating a Plus tree whose stored depth 5
exceeds the budget 0 makes the root resynthesis fail (negative local
budget), and mutate returns the relabelled original unchanged. -/
theorem claim_C5_witness :
    mutate rZero exprG gsNone
      (.ctor 2 ⟨1, 5, 2⟩ (.cons (.ctor 3 ⟨0, 6, 1⟩ .nil)
        (.cons (.ctor 3 ⟨0, 6, 1⟩ .nil) .nil))) 0 0 =
    (relabel_nodes_of_trees
      (.ctor 2 ⟨1, 5, 2⟩ (.cons (.ctor 3 ⟨0, 6, 1⟩ .nil)
        (.cons (.ctor 3 ⟨0, 6, 1⟩ .nil) .nil))) exprG.non_terminals 1, 1) :=
  (claim_C5 rZero exprG gsNone _ 0 0).2 2 ⟨1, 5, 2⟩ _ 1 (.recursionDepth 1 (-4)) 1
    rfl (by decide) (by decide) rfl (by rfl)

/-- Claim C10: for every tree whose root stores size 0, mutate consumes
no draw and returns the relabelled copy, structurally identical to the
input; and relabeling assigns size 0 to every terminal node, so in
particular every single-terminal tree has root size 0. -/
theorem claim_C10 (r : Nat → Nat) (g : Grammar) (gs : GengyState) (c0 : Nat)
    (m : Meta) (ch : TNodeList) (maxd : Int) (k : Nat) (hn : m.nodes = 0) :
    mutate r g gs (.ctor c0 m ch) maxd k =
      (relabel_nodes_of_trees (.ctor c0 m ch) g.non_terminals 1, k) ∧
    eraseMeta (relabel_nodes_of_trees (.ctor c0 m ch) g.non_terminals 1) =
      eraseMeta (.ctor c0 m ch) ∧
    (∀ (c : Nat) (m2 : Meta), g.non_terminals.contains c = false →
      (relabel_nodes g.non_terminals (.ctor c m2 .nil) 1).1 = .ctor c ⟨0, 1, 1⟩ .nil) := by
  refine ⟨?_, ?_, ?_⟩
  · have hinner : mutate_inner r g gs (.ctor c0 m ch) maxd k = (.ctor c0 m ch, k) := by
      simp [mutate_inner, hn]
    simp [mutate, deepcopy_eq, hinner]
  · exact (relabel_nodes_spec g.non_terminals (.ctor c0 m ch) 1).2.2.2.1
  · intro c m2 hterm
    have hm : c ∉ g.non_terminals := by simpa using hterm
    simp [relabel_nodes, hterm, hm]

/-- Witness for claim_C10: mutating the single-terminal tree One leaves
it untouched and consumes no draw. -/
theorem claim_C10_witness :
    mutate rZero exprG gsNone (.ctor 3 ⟨0, 1, 1⟩ .nil) 5 0 =
      (.ctor 3 ⟨0, 1, 1⟩ .nil, 0) := by
  have h := (claim_C10 rZero exprG gsNone 3 ⟨0, 1, 1⟩ .nil 5 0 rfl).1
  exact h.trans (by rfl)

/-- TNodeList.toList views a child list as a plain list. -/
def TNodeList.toList : TNodeList → List TNode
  | .nil => []
  | .cons h t => h :: TNodeList.toList t

/-- SubtreeOf t o: t occurs as a subtree of o (o itself, or recursively
under one of its children). -/
inductive SubtreeOf : TNode → TNode → Prop where
  | refl (t : TNode) : SubtreeOf t t
  | step (t t' : TNode) (c : Nat) (m : Meta) (ch : TNodeList) :
      t' ∈ ch.toList → SubtreeOf t t' → SubtreeOf t (.ctor c m ch)

/-- slotMatches g ty b t: t is a class node whose declared supertype is
ty and whose stored distance-to-term fits the budget b, the condition
find_in_tree selects on. -/
def slotMatches (g : Grammar) (ty : Nat) (b : Int) (t : TNode) : Prop :=
  ∃ (c : Nat) (m : Meta) (ch : TNodeList), t = TNode.ctor c m ch ∧
    g.parentOf c = some ty ∧ ((m.distance_to_term : Int)) ≤ b

mutual
theorem find_in_tree_iff : ∀ (g : Grammar) (ty : Nat) (b : Int) (o t : TNode),
    t ∈ find_in_tree g ty o b ↔ (SubtreeOf t o ∧ slotMatches g ty b t)
  | g, ty, b, .prim v, t => by
    constructor
    · intro h
      simp [find_in_tree] at h
    · rintro ⟨hsub, c, m, ch, ht, _, _⟩
      subst ht
      cases hsub
  | g, ty, b, .ctor c m ch, t => by
    constructor
    · intro h
      rcases List.mem_append.mp h with h1 | h2
      · by_cases hcond : g.parentOf c = some ty ∧ ((m.distance_to_term : Int)) ≤ b
        · rw [if_pos hcond] at h1
          have ht : t = TNode.ctor c m ch := by simpa using h1
          exact ⟨ht ▸ SubtreeOf.refl t, c, m, ch, ht, hcond.1, hcond.2⟩
        · rw [if_neg hcond] at h1
          simp at h1
      · have ih := find_in_tree_children_iff g ty b ch t
        rcases ih.mp h2 with ⟨o', ho', hsub, hm⟩
        exact ⟨SubtreeOf.step t o' c m ch ho' hsub, hm⟩
    · rintro ⟨hsub, hm⟩
      cases hsub with
      | refl =>
        obtain ⟨c2, m2, ch2, ht, hpar, hd⟩ := hm
        injection ht with h1 h2 h3
        subst h1
        subst h2
        subst h3
        apply List.mem_append.mpr
        left
        rw [if_pos ⟨hpar, hd⟩]
        simp
      | step =>
        rename_i t' ho' hsub'
        apply List.mem_append.mpr
        right
        exact (find_in_tree_children_iff g ty b ch t).mpr ⟨t', hsub', ho', hm⟩
theorem find_in_tree_children_iff : ∀ (g : Grammar) (ty : Nat) (b : Int)
    (l : TNodeList) (t : TNode),
    t ∈ find_in_tree_children g ty l b ↔
      (∃ o' ∈ TNodeList.toList l, SubtreeOf t o' ∧ slotMatches g ty b t)
  | g, ty, b, .nil, t => by
    simp [find_in_tree_children, TNodeList.toList]
  | g, ty, b, .cons h tl, t => by
    constructor
    · intro hmem
      rcases List.mem_append.mp hmem with h1 | h2
      · rcases (find_in_tree_iff g ty b h t).mp h1 with ⟨hsub, hm⟩
        exact ⟨h, by simp [TNodeList.toList], hsub, hm⟩
      · rcases (find_in_tree_children_iff g ty b tl t).mp h2 with ⟨o', ho', hsub, hm⟩
        exact ⟨o', by simp [TNodeList.toList, ho'], hsub, hm⟩
    · rintro ⟨o', ho', hsub, hm⟩
      rcases List.mem_cons.mp (by simpa [TNodeList.toList] using ho') with he | hi
      · apply List.mem_append.mpr
        left
        exact (find_in_tree_iff g ty b h t).mpr ⟨he ▸ hsub, hm⟩
      · apply List.mem_append.mpr
        right
        exact (find_in_tree_children_iff g ty b tl t).mpr ⟨o', hi, hsub, hm⟩
end

/-- Claim C7: find_in_tree returns exactly the subtrees of the donor
whose declared supertype matches the slot and whose stored
distance-to-term fits the remaining budget; and at the drawn root
position, tree_crossover_inner splices one of those candidates chosen by
a uniform draw when any qualify, falls back to fresh synthesis when none
do, and degrades to the unchanged base subtree when that synthesis
fails, so the operation never leaves a partially-built tree. -/
theorem claim_C7 (r : Nat → Nat) (g : Grammar) (gs : GengyState) :
    (∀ (ty : Nat) (b : Int) (o t : TNode),
      t ∈ find_in_tree g ty o b ↔ (SubtreeOf t o ∧ slotMatches g ty b t)) ∧
    (∀ (c0 : Nat) (m : Meta) (ch : TNodeList) (o : TNode) (ty : Nat)
       (maxd : Int) (k : Nat),
      0 < m.nodes → (randint r k 0 ((m.nodes : Int) - 1)).1 = 0 →
      g.parentOf c0 = some ty →
      (find_in_tree g ty o (maxd - (m.depth : Int) + 1) ≠ [] →
        (tree_crossover_inner r g gs (.ctor c0 m ch) o maxd k).1 ∈
          find_in_tree g ty o (maxd - (m.depth : Int) + 1)) ∧
      (find_in_tree g ty o (maxd - (m.depth : Int) + 1) = [] →
        (∀ (sub : TNode) (k2 : Nat),
          random_node r g gs (maxd - (m.depth : Int) + 1) ty
            (randint r k 0 ((m.nodes : Int) - 1)).2 = (.ok sub, k2) →
          tree_crossover_inner r g gs (.ctor c0 m ch) o maxd k = (sub, k2)) ∧
        (∀ (e : Err) (k2 : Nat),
          random_node r g gs (maxd - (m.depth : Int) + 1) ty
            (randint r k 0 ((m.nodes : Int) - 1)).2 = (.error e, k2) →
          tree_crossover_inner r g gs (.ctor c0 m ch) o maxd k =
            (.ctor c0 m ch, k2)))) := by
  constructor
  · intro ty b o t
    exact find_in_tree_iff g ty b o t
  · intro c0 m ch o ty maxd k hn hz hp
    constructor
    · intro hne
      have hie : (find_in_tree g ty o (maxd - (m.depth : Int) + 1)).isEmpty = false := by
        cases hq : find_in_tree g ty o (maxd - (m.depth : Int) + 1) with
        | nil => exact absurd hq hne
        | cons x xs => simp
      have hres : (tree_crossover_inner r g gs (.ctor c0 m ch) o maxd k).1 =
          (choiceT r (randint r k 0 ((m.nodes : Int) - 1)).2
            (find_in_tree g ty o (maxd - (m.depth : Int) + 1))).1 := by
        simp [tree_crossover_inner, hn, hz, hp, hie]
      rw [hres]
      simp only [choiceT]
      exact getD_mem _ _ _ (Nat.mod_lt _ (List.length_pos.mpr hne))
    · intro hemp
      have hie : (find_in_tree g ty o (maxd - (m.depth : Int) + 1)).isEmpty = true := by
        rw [hemp]
        rfl
      constructor
      · intro sub k2 hr
        simp [tree_crossover_inner, hn, hz, hp, hie, hr]
      · intro e k2 hr
        simp [tree_crossover_inner, hn, hz, hp, hie, hr]

/-- Witness for claim_C7: with the Plus(One, One) donor and budget 2,
the candidate set at the root slot is nonempty and the crossover splice
returns one of its members. -/
theorem claim_C7_witness :
    (tree_crossover_inner rZero exprG gsNone
      (.ctor 2 ⟨1, 1, 2⟩ (.cons (.ctor 3 ⟨0, 2, 1⟩ .nil)
        (.cons (.ctor 3 ⟨0, 2, 1⟩ .nil) .nil)))
      (.ctor 2 ⟨1, 1, 2⟩ (.cons (.ctor 3 ⟨0, 2, 1⟩ .nil)
        (.cons (.ctor 3 ⟨0, 2, 1⟩ .nil) .nil))) 2 0).1 ∈
    find_in_tree exprG 1
      (.ctor 2 ⟨1, 1, 2⟩ (.cons (.ctor 3 ⟨0, 2, 1⟩ .nil)
        (.cons (.ctor 3 ⟨0, 2, 1⟩ .nil) .nil))) (2 - ((1 : Nat) : Int) + 1) :=
  ((claim_C7 rZero exprG gsNone).2 2 ⟨1, 1, 2⟩ _ _ 1 2 0 (by decide) (by decide)
    rfl).1 (by decide)

theorem expand_k_mono (r : Nat → Nat) (g : Grammar) (gs : GengyState) :
    ∀ (fuel : Nat) (job : EJob) (k : Nat), k ≤ (expandGo r g gs fuel job k).2 := by
  intro fuel
  induction fuel with
  | zero =>
    intro job k
    simp [expandGo]
  | succ fuel ih =>
    intro job k
    match job with
    | .node d sym =>
      simp only [expandGo]
      split
      · simp
      · split
        · simp
        · split
          · simp [random_int]
          · split
            · simp
            · split
              · split
                · rename_i ts k1 hrec
                  have hm := ih (.fieldsJob (d - 1) (g.fieldsOf sym)) k
                  rw [hrec] at hm
                  simpa using hm
                · rename_i t1 k1 hrec
                  have hm := ih (.fieldsJob (d - 1) (g.fieldsOf sym)) k
                  rw [hrec] at hm
                  simpa using hm
                · rename_i e k1 hrec
                  have hm := ih (.fieldsJob (d - 1) (g.fieldsOf sym)) k
                  rw [hrec] at hm
                  simpa using hm
              · split
                · simp
                · split
                  · have hm := ih
                      (.node d (choice_weighted r k (filter_choices g (g.alternatives sym) d)
                        ((filter_choices g (g.alternatives sym) d).map (get_gengy_weight gs))).1)
                      (choice_weighted r k (filter_choices g (g.alternatives sym) d)
                        ((filter_choices g (g.alternatives sym) d).map (get_gengy_weight gs))).2
                    have hk : (choice_weighted r k (filter_choices g (g.alternatives sym) d)
                        ((filter_choices g (g.alternatives sym) d).map (get_gengy_weight gs))).2 =
                        k + 1 := rfl
                    rw [hk] at hm ⊢
                    omega
                  · have hm := ih
                      (.node d (choice r k (filter_choices g (g.alternatives sym) d)).1)
                      (choice r k (filter_choices g (g.alternatives sym) d)).2
                    have hk : (choice r k (filter_choices g (g.alternatives sym) d)).2 = k + 1 :=
                      rfl
                    rw [hk] at hm ⊢
                    omega
    | .fieldsJob d fs =>
      match fs with
      | [] => simp [expandGo]
      | f :: fs' =>
        simp only [expandGo]
        split
        · rename_i t1 k1 hrec1
          have h1 := ih (.node d f) k
          rw [hrec1] at h1
          simp only at h1
          split
          · rename_i ts k2 hrec2
            have h2 := ih (.fieldsJob d fs') k1
            rw [hrec2] at h2
            simp only at h2
            simp
            omega
          · rename_i t2 k2 hrec2
            have h2 := ih (.fieldsJob d fs') k1
            rw [hrec2] at h2
            simp only at h2
            simp
            omega
          · rename_i e k2 hrec2
            have h2 := ih (.fieldsJob d fs') k1
            rw [hrec2] at h2
            simp only at h2
            simp
            omega
        · rename_i ts1 k1 hrec1
          have h1 := ih (.node d f) k
          rw [hrec1] at h1
          simpa using h1
        · rename_i e k1 hrec1
          have h1 := ih (.node d f) k
          rw [hrec1] at h1
          simpa using h1

theorem expand_agree (g : Grammar) (gs : GengyState) :
    ∀ (fuel : Nat) (job : EJob) (k : Nat) (r1 r2 : Nat → Nat),
      (∀ j, k ≤ j → j < (expandGo r1 g gs fuel job k).2 → r1 j = r2 j) →
      expandGo r2 g gs fuel job k = expandGo r1 g gs fuel job k := by
  intro fuel
  induction fuel with
  | zero =>
    intro job k r1 r2 _
    simp [expandGo]
  | succ fuel ih =>
    intro job k r1 r2 hag
    match job with
    | .node d sym =>
      simp only [expandGo] at hag ⊢
      by_cases hd : d < 0
      · simp only [if_pos hd]
      · simp only [if_neg hd] at hag ⊢
        by_cases hdd : d < (g.get_distance_to_terminal sym : Int)
        · simp only [if_pos hdd]
        · simp only [if_neg hdd] at hag ⊢
          by_cases hbu : g.isBuiltinOf sym = true
          · simp only [if_pos hbu] at hag ⊢
            have hk : r1 k = r2 k := hag k (le_refl k) (by simp [random_int])
            simp [random_int, hk]
          · simp only [if_neg hbu] at hag ⊢
            by_cases hco : (!g.symbols.contains sym) = true
            · simp only [if_pos hco]
            · simp only [if_neg hco] at hag ⊢
              by_cases hemp : (g.alternatives sym).isEmpty = true
              · simp only [if_pos hemp] at hag ⊢
                cases hrec1 : expandGo r1 g gs fuel (.fieldsJob (d - 1) (g.fieldsOf sym)) k with
                | mk res k1 =>
                  rw [hrec1] at hag
                  have hrec2 : expandGo r2 g gs fuel (.fieldsJob (d - 1) (g.fieldsOf sym)) k =
                      (res, k1) := by
                    rw [← hrec1]
                    apply ih
                    intro j h1 h2
                    apply hag j h1
                    rw [hrec1] at h2
                    cases res with
                    | ok v =>
                      cases v with
                      | tree t => simpa using h2
                      | trees ts => simpa using h2
                    | error e => simpa using h2
                  rw [hrec2]
              · simp only [if_neg hemp] at hag ⊢
                by_cases hve : (filter_choices g (g.alternatives sym) d).isEmpty = true
                · simp only [if_pos hve]
                · simp only [if_neg hve] at hag ⊢
                  by_cases hw : ((filter_choices g (g.alternatives sym) d).any
                      (fun p => (gs p).isSome)) = true
                  · simp only [if_pos hw] at hag ⊢
                    have hfin := expand_k_mono r1 g gs fuel
                      (.node d (choice_weighted r1 k (filter_choices g (g.alternatives sym) d)
                        ((filter_choices g (g.alternatives sym) d).map (get_gengy_weight gs))).1)
                      (choice_weighted r1 k (filter_choices g (g.alternatives sym) d)
                        ((filter_choices g (g.alternatives sym) d).map (get_gengy_weight gs))).2
                    have hk : r1 k = r2 k := by
                      apply hag k (le_refl k)
                      have h2 : (choice_weighted r1 k (filter_choices g (g.alternatives sym) d)
                          ((filter_choices g (g.alternatives sym) d).map
                            (get_gengy_weight gs))).2 = k + 1 := rfl
                      rw [h2] at hfin ⊢
                      omega
                    have hcc : choice_weighted r2 k (filter_choices g (g.alternatives sym) d)
                        ((filter_choices g (g.alternatives sym) d).map (get_gengy_weight gs)) =
                        choice_weighted r1 k (filter_choices g (g.alternatives sym) d)
                        ((filter_choices g (g.alternatives sym) d).map (get_gengy_weight gs)) := by
                      simp [choice_weighted, hk]
                    rw [hcc]
                    apply ih
                    intro j h1 h2
                    have h3 : (choice_weighted r1 k (filter_choices g (g.alternatives sym) d)
                        ((filter_choices g (g.alternatives sym) d).map
                          (get_gengy_weight gs))).2 = k + 1 := rfl
                    apply hag j (by omega) h2
                  · simp only [if_neg hw] at hag ⊢
                    have hfin := expand_k_mono r1 g gs fuel
                      (.node d (choice r1 k (filter_choices g (g.alternatives sym) d)).1)
                      (choice r1 k (filter_choices g (g.alternatives sym) d)).2
                    have hk : r1 k = r2 k := by
                      apply hag k (le_refl k)
                      have h2 : (choice r1 k (filter_choices g (g.alternatives sym) d)).2 =
                          k + 1 := rfl
                      rw [h2] at hfin ⊢
                      omega
                    have hcc : choice r2 k (filter_choices g (g.alternatives sym) d) =
                        choice r1 k (filter_choices g (g.alternatives sym) d) := by
                      simp [choice, hk]
                    rw [hcc]
                    apply ih
                    intro j h1 h2
                    have h3 : (choice r1 k (filter_choices g (g.alternatives sym) d)).2 =
                        k + 1 := rfl
                    apply hag j (by omega) h2
    | .fieldsJob d fs =>
      match fs with
      | [] => simp [expandGo]
      | f :: fs' =>
        simp only [expandGo] at hag ⊢
        cases hrec1 : expandGo r1 g gs fuel (.node d f) k with
        | mk res1 k1 =>
          rw [hrec1] at hag
          have hk1 := expand_k_mono r1 g gs fuel (.node d f) k
          rw [hrec1] at hk1
          simp only at hk1
          cases res1 with
          | ok v1 =>
            cases v1 with
            | tree t1 =>
              simp only [] at hag
              cases hrec2 : expandGo r1 g gs fuel (.fieldsJob d fs') k1 with
              | mk res2 k2 =>
                rw [hrec2] at hag
                have hk2 := expand_k_mono r1 g gs fuel (.fieldsJob d fs') k1
                rw [hrec2] at hk2
                simp only at hk2
                have hr1 : expandGo r2 g gs fuel (.node d f) k = (.ok (.tree t1), k1) := by
                  rw [← hrec1]
                  apply ih
                  intro j h1 h2
                  rw [hrec1] at h2
                  simp only at h2
                  apply hag j h1
                  cases res2 with
                  | ok v2 => cases v2 <;> simp <;> omega
                  | error e => simp; omega
                have hr2 : expandGo r2 g gs fuel (.fieldsJob d fs') k1 = (res2, k2) := by
                  rw [← hrec2]
                  apply ih
                  intro j h1 h2
                  rw [hrec2] at h2
                  simp only at h2
                  apply hag j (by omega)
                  cases res2 with
                  | ok v2 => cases v2 <;> simp <;> omega
                  | error e => simp; omega
                rw [hr1]
                simp only []
                rw [hr2, hrec2]
            | trees ts1 =>
              have hr1 : expandGo r2 g gs fuel (.node d f) k = (.ok (.trees ts1), k1) := by
                rw [← hrec1]
                apply ih
                intro j h1 h2
                rw [hrec1] at h2
                simp only at h2
                exact hag j h1 (by simpa using h2)
              rw [hr1]
          | error e1 =>
            have hr1 : expandGo r2 g gs fuel (.node d f) k = (.error e1, k1) := by
              rw [← hrec1]
              apply ih
              intro j h1 h2
              rw [hrec1] at h2
              simp only at h2
              exact hag j h1 (by simpa using h2)
            rw [hr1]

/-- Claim C8: synthesis is deterministic in its inputs: a successful
PI_Grow run depends on the random source only through the draws it
consumes, so any second source that agrees with the first on the
consumed range (in particular, an identically-seeded one, which agrees
everywhere) produces the structurally identical tree, with the same
concrete type at every position and the same primitive values, and the
same final cursor. -/
theorem claim_C8 (g : Grammar) (gs : GengyState) (budget : Int) (sym k : Nat)
    (r1 r2 : Nat → Nat) (t : TNode) (k1 : Nat)
    (h : PI_Grow r1 g gs budget sym k = (.ok t, k1))
    (hag : ∀ j, k ≤ j → j < k1 → r1 j = r2 j) :
    PI_Grow r2 g gs budget sym k = (.ok t, k1) := by
  simp only [PI_Grow] at h ⊢
  cases hrec : expandGo r1 g gs (fuelFor g budget) (.node budget sym) k with
  | mk res k2 =>
    rw [hrec] at h
    cases res with
    | ok v =>
      cases v with
      | tree t0 =>
        simp only [Prod.mk.injEq, Except.ok.injEq] at h
        have hagree : expandGo r2 g gs (fuelFor g budget) (.node budget sym) k =
            expandGo r1 g gs (fuelFor g budget) (.node budget sym) k := by
          apply expand_agree
          intro j hj1 hj2
          rw [hrec] at hj2
          simp only at hj2
          exact hag j hj1 (by omega)
        rw [hagree, hrec]
        simp [h.1, h.2]
      | trees ts => simp at h
    | error e => simp at h

/-- rAlt is a random stream agreeing with rZero on the first three
draws only. -/
def rAlt : Nat → Nat := fun j => if j < 3 then 0 else 7

/-- Witness for claim_C8: the budget-2 synthesis on the Expr grammar
consumes three draws, so replaying it under any stream agreeing on those
three draws reproduces Plus(One, One) exactly. -/
theorem claim_C8_witness :
    PI_Grow rAlt exprG gsNone 2 1 0 =
      (.ok (.ctor 2 ⟨1, 1, 2⟩ (.cons (.ctor 3 ⟨0, 2, 1⟩ .nil)
        (.cons (.ctor 3 ⟨0, 2, 1⟩ .nil) .nil))), 3) :=
  claim_C8 exprG gsNone 2 1 0 rZero rAlt _ 3 rfl
    (by intro j h1 h2; simp [rZero, rAlt, h2])

/-- ruleTotal is the total weight a rule accumulates during
update_weights: the sum over its productions of the stepped weights. -/
def ruleTotal (lr : ℚ) (e : Nat → ℚ) (w : Nat → ℚ) (prods : List Nat) : ℚ :=
  (prods.map (fun p => w p + lr * e p)).sum

theorem map_sum_congr_q (f1 f2 : Nat → ℚ) : ∀ (l : List Nat),
    (∀ x ∈ l, f1 x = f2 x) → (l.map f1).sum = (l.map f2).sum
  | [], _ => rfl
  | x :: t, h => by
    simp only [List.map, List.sum_cons]
    rw [h x (by simp), map_sum_congr_q f1 f2 t (fun z hz => h z (List.mem_cons_of_mem x hz))]

theorem map_sum_div (f : Nat → ℚ) (T : ℚ) : ∀ (l : List Nat),
    (l.map (fun p => f p / T)).sum = (l.map f).sum / T
  | [] => by simp
  | x :: t => by
    simp only [List.map, List.sum_cons]
    rw [map_sum_div f T t]
    rw [add_div]

theorem uw_stepped_spec (lr : ℚ) (e : Nat → ℚ) : ∀ (prods : List Nat) (w : Nat → ℚ)
    (t0 : ℚ), prods.Nodup →
    (∀ p, (prods.foldl
        (fun (acc : (Nat → ℚ) × ℚ) p =>
          let w' := updWeight acc.1 p (acc.1 p + lr * e p)
          (w', acc.2 + w' p)) (w, t0)).1 p =
      (if p ∈ prods then w p + lr * e p else w p)) ∧
    (prods.foldl
        (fun (acc : (Nat → ℚ) × ℚ) p =>
          let w' := updWeight acc.1 p (acc.1 p + lr * e p)
          (w', acc.2 + w' p)) (w, t0)).2 = t0 + ruleTotal lr e w prods
  | [], w, t0, _ => by
    constructor
    · intro p
      simp [ruleTotal]
    · simp [ruleTotal]
  | q :: t, w, t0, hnd => by
    have hq : q ∉ t := (List.nodup_cons.mp hnd).1
    have hndt : t.Nodup := (List.nodup_cons.mp hnd).2
    have hw1q : updWeight w q (w q + lr * e q) q = w q + lr * e q := by simp [updWeight]
    have ih := uw_stepped_spec lr e t (updWeight w q (w q + lr * e q))
      (t0 + updWeight w q (w q + lr * e q) q) hndt
    constructor
    · intro p
      simp only [List.foldl]
      rw [ih.1 p]
      by_cases hp : p = q
      · subst hp
        simp [hq, updWeight]
      · by_cases hpt : p ∈ t
        · simp [hpt, updWeight, hp, List.mem_cons]
        · have : p ∉ q :: t := by simp [hp, hpt]
          simp [hpt, updWeight, hp, this]
    · simp only [List.foldl]
      rw [ih.2]
      have hcong : ruleTotal lr e (updWeight w q (w q + lr * e q)) t =
          ruleTotal lr e w t := by
        apply map_sum_congr_q
        intro x hx
        have hxq : x ≠ q := fun hxx => hq (hxx ▸ hx)
        simp [updWeight, hxq]
      rw [hcong, hw1q]
      simp only [ruleTotal, List.map, List.sum_cons]
      ring

theorem uw_norm_spec (T : ℚ) : ∀ (prods : List Nat) (w : Nat → ℚ), prods.Nodup →
    ∀ p, (prods.foldl (fun wb q => updWeight wb q (wb q / T)) w) p =
      (if p ∈ prods then w p / T else w p)
  | [], w, _, p => by simp
  | q :: t, w, hnd, p => by
    have hq : q ∉ t := (List.nodup_cons.mp hnd).1
    have hndt : t.Nodup := (List.nodup_cons.mp hnd).2
    have ih := uw_norm_spec T t (updWeight w q (w q / T)) hndt p
    simp only [List.foldl]
    rw [ih]
    by_cases hp : p = q
    · subst hp
      simp [hq, updWeight]
    · by_cases hpt : p ∈ t
      · simp [hpt, updWeight, hp, List.mem_cons]
      · have : p ∉ q :: t := by simp [hp, hpt]
        simp [hpt, updWeight, hp, this]

theorem update_weights_rule_spec (lr : ℚ) (e : Nat → ℚ) (prods : List Nat)
    (w : Nat → ℚ) (hnd : prods.Nodup) (p : Nat) :
    update_weights_rule lr e prods w p =
      (if p ∈ prods then (w p + lr * e p) / ruleTotal lr e w prods else w p) := by
  have hst := uw_stepped_spec lr e prods w 0 hnd
  unfold update_weights_rule
  simp only []
  rw [uw_norm_spec _ prods _ hnd p]
  rw [hst.1 p, hst.2]
  by_cases hp : p ∈ prods
  · simp [hp]
  · simp [hp]

theorem update_weights_rule_sum (lr : ℚ) (e : Nat → ℚ) (prods : List Nat)
    (w : Nat → ℚ) (hnd : prods.Nodup) (hT : ruleTotal lr e w prods ≠ 0) :
    (prods.map (update_weights_rule lr e prods w)).sum = 1 := by
  have h1 : (prods.map (update_weights_rule lr e prods w)).sum =
      (prods.map (fun p => (w p + lr * e p) / ruleTotal lr e w prods)).sum := by
    apply map_sum_congr_q
    intro x hx
    rw [update_weights_rule_spec lr e prods w hnd x, if_pos hx]
  rw [h1, map_sum_div]
  exact div_self hT

theorem uw_fold_frame (lr : ℚ) (e : Nat → ℚ) (g : Grammar) (p : Nat) :
    ∀ (rules : List Nat) (w : Nat → ℚ),
    (∀ r ∈ rules, (g.alternatives r).Nodup) →
    (∀ r ∈ rules, p ∉ g.alternatives r) →
    (rules.foldl (fun wa r => update_weights_rule lr e (g.alternatives r) wa) w) p = w p
  | [], _, _, _ => rfl
  | q :: t, w, hnd, hfr => by
    simp only [List.foldl]
    rw [uw_fold_frame lr e g p t _ (fun r hr => hnd r (List.mem_cons_of_mem q hr))
      (fun r hr => hfr r (List.mem_cons_of_mem q hr))]
    rw [update_weights_rule_spec lr e _ w (hnd q (by simp)) p,
      if_neg (hfr q (by simp))]

theorem uw_fold_mem (lr : ℚ) (e : Nat → ℚ) (g : Grammar) :
    ∀ (rules : List Nat) (w : Nat → ℚ),
    rules.Nodup →
    (∀ r ∈ rules, (g.alternatives r).Nodup) →
    (∀ r1 ∈ rules, ∀ r2 ∈ rules, r1 ≠ r2 →
      ∀ p ∈ g.alternatives r1, p ∉ g.alternatives r2) →
    ∀ ru ∈ rules, ∀ p ∈ g.alternatives ru,
      (rules.foldl (fun wa r => update_weights_rule lr e (g.alternatives r) wa) w) p =
        (w p + lr * e p) / ruleTotal lr e w (g.alternatives ru)
  | [], _, _, _, _ => by
    intro ru hru
    cases hru
  | q :: t, w, hrnd, hnd, hdisj => by
    intro ru hru p hp
    have hqt : q ∉ t := (List.nodup_cons.mp hrnd).1
    have htnd : t.Nodup := (List.nodup_cons.mp hrnd).2
    simp only [List.foldl]
    rcases List.mem_cons.mp hru with hq | hrt
    · subst hq
      have hfr : ∀ r ∈ t, p ∉ g.alternatives r := by
        intro r hr
        exact hdisj ru (by simp) r (List.mem_cons_of_mem ru hr)
          (fun hh => hqt (hh ▸ hr)) p hp
      rw [uw_fold_frame lr e g p t _ (fun r hr => hnd r (List.mem_cons_of_mem ru hr)) hfr]
      rw [update_weights_rule_spec lr e _ w (hnd ru (by simp)) p, if_pos hp]
    · have hne : q ≠ ru := fun hh => hqt (hh ▸ hrt)
      have hih := uw_fold_mem lr e g t (update_weights_rule lr e (g.alternatives q) w) htnd
        (fun r hr => hnd r (List.mem_cons_of_mem q hr))
        (fun r1 h1 r2 h2 hne12 =>
          hdisj r1 (List.mem_cons_of_mem q h1) r2 (List.mem_cons_of_mem q h2) hne12)
        ru hrt p hp
      rw [hih]
      have hpq : p ∉ g.alternatives q :=
        hdisj ru (List.mem_cons_of_mem q hrt) q (by simp) (fun hh => hne hh.symm) p hp
      have hw1p : update_weights_rule lr e (g.alternatives q) w p = w p := by
        rw [update_weights_rule_spec lr e _ w (hnd q (by simp)) p, if_neg hpq]
      have hTcong : ruleTotal lr e (update_weights_rule lr e (g.alternatives q) w)
          (g.alternatives ru) = ruleTotal lr e w (g.alternatives ru) := by
        simp only [ruleTotal]
        apply map_sum_congr_q
        intro x hx
        have hxq : x ∉ g.alternatives q :=
          hdisj ru (List.mem_cons_of_mem q hrt) q (by simp) (fun hh => hne hh.symm) x hx
        rw [update_weights_rule_spec lr e _ w (hnd q (by simp)) x, if_neg hxq]
      rw [hw1p, hTcong]

/-- uwFoldW is the full updated weight map computed by update_weights:
the per-rule renormalizing step folded over every symbol that has
alternatives, starting from the class-level weights. -/
def uwFoldW (gs : GengyState) (g : Grammar) (lr : ℚ) (e : Nat → ℚ) : Nat → ℚ :=
  (g.symbols.filter (fun s => !(g.alternatives s).isEmpty)).foldl
    (fun w rule => update_weights_rule lr e (g.alternatives rule) w)
    (g.get_weights gs)

theorem update_weights_ok_state (gs : GengyState) (g : Grammar) (lr : ℚ) (e : Nat → ℚ)
    (g1 : Grammar) (gs1 : GengyState)
    (hok : update_weights gs g lr e = .ok (g1, gs1)) (p : Nat) :
    gs1 p = (if p = g.starting_symbol || g.considered_subtypes.contains p
      then some (uwFoldW gs g lr e p) else gs p) := by
  unfold update_weights at hok
  simp only [] at hok
  split at hok
  · split at hok
    · cases hok
    · injection hok with h2
      have h3 := congrArg Prod.snd h2
      simp only [] at h3
      rw [← h3]
      simp only [uwFoldW]
  · cases hok

/-- uwStateAt projects the class-level gengy state out of an
update_weights result at one symbol (none on error). -/
def uwStateAt (x : Except Err (Grammar × GengyState)) (p : Nat) : Option ℚ :=
  match x with
  | .ok (_, gs) => gs p
  | .error _ => none

/-- e0 is the all-zero extra-weights input. -/
def e0 : Nat → ℚ := fun _ => 0

/-- C9: the claim asserts update_weights returns a new Grammar without
mutating shared class-level state of the registered node types.  False:
on the expression grammar (no explicit class weights, so symbol 2's
class-level gengy weight entry is absent) a single update_weights call
with learning rate 0 writes the renormalized weight 1/2 into symbol 2's
class-level gengy state, which any later run reading the same classes
observes. -/
theorem claim_C9_counterexample :
    uwStateAt (update_weights gsNone exprG 0 e0) 2 = some (1 / 2) ∧
    gsNone 2 = none := by
  exact ⟨by with_unfolding_all decide, rfl⟩

/-- C9 (amended): for any grammar whose rules draw disjoint,
duplicate-free production lists with nonzero stepped totals, a
successful update_weights renormalizes each rule's sibling weights to
sum to 1; but the new weights are written into the shared class-level
gengy state of the starting symbol and of every considered subtype
(gs1), overwriting whatever weight entry those classes carried. -/
theorem claim_C9_amended (gs : GengyState) (g : Grammar) (lr : ℚ) (e : Nat → ℚ)
    (g1 : Grammar) (gs1 : GengyState)
    (hrnd : (g.symbols.filter (fun s => !(g.alternatives s).isEmpty)).Nodup)
    (hnd : ∀ r ∈ g.symbols.filter (fun s => !(g.alternatives s).isEmpty),
      (g.alternatives r).Nodup)
    (hdisj : ∀ r1 ∈ g.symbols.filter (fun s => !(g.alternatives s).isEmpty),
      ∀ r2 ∈ g.symbols.filter (fun s => !(g.alternatives s).isEmpty),
      r1 ≠ r2 → ∀ p ∈ g.alternatives r1, p ∉ g.alternatives r2)
    (htot : ∀ r ∈ g.symbols.filter (fun s => !(g.alternatives s).isEmpty),
      ruleTotal lr e (g.get_weights gs) (g.alternatives r) ≠ 0)
    (hok : update_weights gs g lr e = .ok (g1, gs1)) :
    (∀ ru ∈ g.symbols.filter (fun s => !(g.alternatives s).isEmpty),
      ((g.alternatives ru).map (uwFoldW gs g lr e)).sum = 1) ∧
    (∀ p, gs1 p = (if p = g.starting_symbol || g.considered_subtypes.contains p
      then some (uwFoldW gs g lr e p) else gs p)) := by
  constructor
  · intro ru hru
    have hmem := uw_fold_mem lr e g
      (g.symbols.filter (fun s => !(g.alternatives s).isEmpty))
      (g.get_weights gs) hrnd hnd hdisj ru hru
    have h1 : ((g.alternatives ru).map (uwFoldW gs g lr e)).sum =
        ((g.alternatives ru).map (fun p => (g.get_weights gs p + lr * e p) /
          ruleTotal lr e (g.get_weights gs) (g.alternatives ru))).sum := by
      apply map_sum_congr_q
      intro x hx
      exact hmem x hx
    rw [h1, map_sum_div]
    exact div_self (htot ru hru)
  · exact update_weights_ok_state gs g lr e g1 gs1 hok

/-- uwGs1Demo is the class-level state left behind by the witness
update_weights run on the expression grammar. -/
def uwGs1Demo : GengyState := fun p =>
  if p = exprG.starting_symbol || exprG.considered_subtypes.contains p
  then some (uwFoldW gsNone exprG 0 e0 p) else gsNone p

theorem claim_C9_witness :
    (∀ ru ∈ exprG.symbols.filter (fun s => !(exprG.alternatives s).isEmpty),
      ((exprG.alternatives ru).map (uwFoldW gsNone exprG 0 e0)).sum = 1) ∧
    (∀ p, uwGs1Demo p = (if p = exprG.starting_symbol ||
        exprG.considered_subtypes.contains p
      then some (uwFoldW gsNone exprG 0 e0 p) else gsNone p)) :=
  claim_C9_amended gsNone exprG 0 e0 (preprocess (buildGrammar exprG.toGrammarDesc))
    uwGs1Demo (by decide) (by decide) (by decide) (by with_unfolding_all decide)
    (by with_unfolding_all rfl)

/-- An address holding an object is in bounds. -/
theorem store_get_lt {s : Store} {a : Nat} {o : HObj} (h : s.get? a = some o) :
    a < s.length := by
  by_contra hlt
  rw [List.get?_eq_getElem?, List.getElem?_eq_none (Nat.le_of_not_lt hlt)] at h
  cases h

theorem store_get_set_ne (s : Store) (a b : Nat) (x : HObj) (h : a ≠ b) :
    (s.set a x).get? b = s.get? b := by
  simp [List.get?_eq_getElem?, List.getElem?_set_ne h]

theorem store_get_set_self (s : Store) (a : Nat) (x : HObj) (h : a < s.length) :
    (s.set a x).get? a = some x := by
  simp [List.get?_eq_getElem?, List.getElem?_set_self, h]

theorem store_get_append_lt (s s2 : Store) (a : Nat) (h : a < s.length) :
    (s ++ s2).get? a = s.get? a := by
  simp [List.get?_eq_getElem?, List.getElem?_append, h]

theorem store_get_append_self (s : Store) (x : HObj) :
    (s ++ [x]).get? s.length = some x := by
  simp [List.get?_eq_getElem?]

/-- ClosedAbove n s: every object stored at or above the boundary n only
references addresses at or above n.  It holds vacuously at the current
store length, which is how the frame proofs start: the fresh region that
deepcopy and synthesis build above the original store never points back
below it. -/
def ClosedAbove (n : Nat) (s : Store) : Prop :=
  ∀ a o, n ≤ a → s.get? a = some o → ∀ x ∈ refsOf o, n ≤ x

theorem closedAbove_of_le {n : Nat} {s : Store} (h : s.length ≤ n) : ClosedAbove n s := by
  intro a o ha hget x _
  exact absurd (store_get_lt hget) (by omega)

theorem hsetField_length (s : Store) (a idx ref : Nat) :
    (hsetField s a idx ref).length = s.length := by
  unfold hsetField
  split
  · simp
  · rfl

theorem hsetField_frame (s : Store) (a idx ref b : Nat) (h : b ≠ a) :
    (hsetField s a idx ref).get? b = s.get? b := by
  unfold hsetField
  split
  · exact store_get_set_ne s a b _ (fun hh => h hh.symm)
  · rfl

theorem hsetField_closed (n : Nat) (s : Store) (a idx ref : Nat) (ha : n ≤ a)
    (href : n ≤ ref) (hc : ClosedAbove n s) : ClosedAbove n (hsetField s a idx ref) := by
  unfold hsetField
  split
  · rename_i c m rs hget
    intro b o hb hgetb x hx
    by_cases hba : b = a
    · subst hba
      rw [store_get_set_self s b _ (store_get_lt hget)] at hgetb
      injection hgetb with ho
      subst ho
      simp only [refsOf] at hx
      rcases List.mem_or_eq_of_mem_set hx with hxr | hxr
      · exact hc b _ hb hget x hxr
      · omega
    · rw [store_get_set_ne s a b _ (fun hh => hba hh.symm)] at hgetb
      exact hc b o hb hgetb x hx
  · exact hc

theorem hsetMeta_length (s : Store) (a : Nat) (m : Meta) :
    (hsetMeta s a m).length = s.length := by
  unfold hsetMeta
  split
  · simp
  · rfl

theorem hsetMeta_frame (s : Store) (a : Nat) (m : Meta) (b : Nat) (h : b ≠ a) :
    (hsetMeta s a m).get? b = s.get? b := by
  unfold hsetMeta
  split
  · exact store_get_set_ne s a b _ (fun hh => h hh.symm)
  · rfl

theorem hsetMeta_closed (n : Nat) (s : Store) (a : Nat) (m : Meta) (ha : n ≤ a)
    (hc : ClosedAbove n s) : ClosedAbove n (hsetMeta s a m) := by
  unfold hsetMeta
  split
  · rename_i c m0 rs hget
    intro b o hb hgetb x hx
    by_cases hba : b = a
    · subst hba
      rw [store_get_set_self s b _ (store_get_lt hget)] at hgetb
      injection hgetb with ho
      subst ho
      simp only [refsOf] at hx
      exact hc b _ hb hget x hx
    · rw [store_get_set_ne s a b _ (fun hh => hba hh.symm)] at hgetb
      exact hc b o hb hgetb x hx
  · exact hc

theorem allocTree_ctor (s : Store) (c : Nat) (m : Meta) (ch : TNodeList) :
    allocTree s (.ctor c m ch) =
      ((allocList s ch).1 ++ [HObj.ctorO c m (allocList s ch).2],
        (allocList s ch).1.length) := rfl

theorem allocList_cons (s : Store) (h : TNode) (t : TNodeList) :
    allocList s (.cons h t) =
      ((allocList (allocTree s h).1 t).1,
        (allocTree s h).2 :: (allocList (allocTree s h).1 t).2) := rfl

/-- ClosedAbove survives appending one object whose references are all at
or above the boundary. -/
theorem closedAbove_append (n : Nat) (s : Store) (o : HObj)
    (hc : ClosedAbove n s) (ho : ∀ x ∈ refsOf o, n ≤ x) :
    ClosedAbove n (s ++ [o]) := by
  intro b ob hb hget x hx
  rcases Nat.lt_trichotomy b s.length with hlt | heq | hgt
  · rw [store_get_append_lt s _ b hlt] at hget
    exact hc b ob hb hget x hx
  · subst heq
    rw [store_get_append_self] at hget
    injection hget with ho2
    subst ho2
    exact ho x hx
  · rw [List.get?_eq_getElem?, List.getElem?_eq_none (by simp; omega)] at hget
    cases hget

mutual
theorem allocTree_spec (n : Nat) : ∀ (s : Store) (t : TNode), n ≤ s.length →
    ClosedAbove n s →
    s.length ≤ (allocTree s t).1.length ∧
    (∀ a, a < s.length → (allocTree s t).1.get? a = s.get? a) ∧
    ClosedAbove n (allocTree s t).1 ∧
    n ≤ (allocTree s t).2
  | s, .prim v, hn, hc => by
    refine ⟨by simp [allocTree], fun a ha => store_get_append_lt s _ a ha, ?_, by
      simpa [allocTree] using hn⟩
    exact closedAbove_append n s _ hc (by simp [refsOf])
  | s, .ctor c m ch, hn, hc => by
    have ih := allocList_spec n s ch hn hc
    rw [allocTree_ctor]
    refine ⟨by simp; omega, ?_, ?_, by simp; omega⟩
    · intro a ha
      rw [store_get_append_lt _ _ a (by omega), ih.2.1 a ha]
    · exact closedAbove_append n _ _ ih.2.2.1 (by simpa [refsOf] using ih.2.2.2)
theorem allocList_spec (n : Nat) : ∀ (s : Store) (l : TNodeList), n ≤ s.length →
    ClosedAbove n s →
    s.length ≤ (allocList s l).1.length ∧
    (∀ a, a < s.length → (allocList s l).1.get? a = s.get? a) ∧
    ClosedAbove n (allocList s l).1 ∧
    (∀ x ∈ (allocList s l).2, n ≤ x)
  | s, .nil, hn, hc => ⟨le_refl _, fun _ _ => rfl, hc, by simp [allocList]⟩
  | s, .cons h t, hn, hc => by
    have ih1 := allocTree_spec n s h hn hc
    have ih2 := allocList_spec n (allocTree s h).1 t (by omega) ih1.2.2.1
    rw [allocList_cons]
    refine ⟨by simp; omega, ?_, ih2.2.2.1, ?_⟩
    · intro a ha
      rw [ih2.2.1 a (by omega), ih1.2.1 a ha]
    · intro x hx
      rcases List.mem_cons.mp hx with hx1 | hx1
      · subst hx1
        exact ih1.2.2.2
      · exact ih2.2.2.2 x hx1
end

/-- FGood states the addresses a find job scans are above the boundary. -/
def FGood (n : Nat) : FJob → Prop
  | .fnode a => n ≤ a
  | .flist as' => ∀ x ∈ as', n ≤ x

theorem hfindGo_spec (g : Grammar) (ty : Nat) (maxd : Int) (s : Store) (n : Nat)
    (hc : ClosedAbove n s) : ∀ (fuel : Nat) (j : FJob), FGood n j →
    ∀ x ∈ hfindGo g ty maxd s fuel j, n ≤ x
  | 0, j, _ => by simp [hfindGo]
  | fuel + 1, .fnode a, hj => by
    intro x hx
    cases hs : s.get? a with
    | none =>
      simp only [hfindGo, hs] at hx
      simp at hx
    | some obj =>
      cases obj with
      | primO v =>
        simp only [hfindGo, hs] at hx
        simp at hx
      | ctorO c m rs =>
        simp only [hfindGo, hs] at hx
        rcases List.mem_append.mp hx with h1 | h1
        · have hja : n ≤ a := hj
          split at h1
          · have : x = a := by simpa using h1
            omega
          · cases h1
        · exact hfindGo_spec g ty maxd s n hc fuel (.flist rs)
            (fun y hy => hc a _ hj hs y hy) x h1
  | fuel + 1, .flist [], _ => by simp [hfindGo]
  | fuel + 1, .flist (a :: as'), hj => by
    intro x hx
    simp only [hfindGo] at hx
    rcases List.mem_append.mp hx with h1 | h1
    · exact hfindGo_spec g ty maxd s n hc fuel (.fnode a) (hj a (by simp)) x h1
    · exact hfindGo_spec g ty maxd s n hc fuel (.flist as')
        (fun y hy => hj y (List.mem_cons_of_mem a hy)) x h1

/-- MGood states the addresses a mutate job touches are above the
boundary. -/
def MGood (n : Nat) : MJob → Prop
  | .mnode a => n ≤ a
  | .mwalk parent rs _ _ => n ≤ parent ∧ ∀ x ∈ rs, n ≤ x

theorem hmutateGo_spec (r : Nat → Nat) (g : Grammar) (gs : GengyState) (maxd : Int)
    (n : Nat) : ∀ (fuel : Nat) (s : Store) (j : MJob) (k : Nat), MGood n j →
    n ≤ s.length → ClosedAbove n s →
    s.length ≤ (hmutateGo r g gs maxd fuel s j k).1.length ∧
    (∀ a, a < n → (hmutateGo r g gs maxd fuel s j k).1.get? a = s.get? a) ∧
    ClosedAbove n (hmutateGo r g gs maxd fuel s j k).1 ∧
    n ≤ (hmutateGo r g gs maxd fuel s j k).2.1
  | 0, s, .mnode a, k, hj, _, hc => ⟨le_refl _, fun _ _ => rfl, hc, hj⟩
  | 0, s, .mwalk p rs idx c, k, hj, _, hc => ⟨le_refl _, fun _ _ => rfl, hc, hj.1⟩
  | fuel + 1, s, .mnode a, k, hj, hn, hc => by
    cases hs : s.get? a with
    | none =>
      simp only [hmutateGo, hs]
      exact ⟨le_refl _, fun _ _ => by trivial, hc, hj⟩
    | some obj =>
      cases obj with
      | primO v =>
        simp only [hmutateGo, hs]
        exact ⟨le_refl _, fun _ _ => by trivial, hc, hj⟩
      | ctorO c0 m rs0 =>
        simp only [hmutateGo, hs]
        by_cases hm : 0 < m.nodes
        · rw [if_pos hm]
          by_cases hck : (randint r k 0 ((m.nodes : Int) - 1)).1 = 0
          · rw [if_pos hck]
            cases hpo : g.parentOf c0 with
            | none =>
              simp only []
              exact ⟨le_refl _, fun _ _ => by trivial, hc, hj⟩
            | some ty =>
              simp only []
              cases hrn : random_node r g gs (maxd - (m.depth : Int) + 1) ty
                  (randint r k 0 ((m.nodes : Int) - 1)).2 with
              | mk res k2 =>
                cases res with
                | ok replacement =>
                  simp only []
                  have hsp := allocTree_spec n s replacement hn hc
                  exact ⟨hsp.1, fun a' ha' => hsp.2.1 a' (by omega), hsp.2.2.1, hsp.2.2.2⟩
                | error er =>
                  simp only []
                  exact ⟨le_refl _, fun _ _ => by trivial, hc, hj⟩
          · rw [if_neg hck]
            exact hmutateGo_spec r g gs maxd n fuel s (.mwalk a rs0 0 _) _
              ⟨hj, fun x hx => hc a _ hj hs x hx⟩ hn hc
        · rw [if_neg hm]
          exact ⟨le_refl _, fun _ _ => by trivial, hc, hj⟩
  | fuel + 1, s, .mwalk parent [] idx c, k, hj, _, hc => by
    simp only [hmutateGo]
    exact ⟨le_refl _, fun _ _ => by trivial, hc, hj.1⟩
  | fuel + 1, s, .mwalk parent (a :: rest) idx c, k, hj, hn, hc => by
    have hja : n ≤ a := hj.2 a (by simp)
    have hjrest : MGood n (.mwalk parent rest (idx + 1) c) :=
      ⟨hj.1, fun x hx => hj.2 x (List.mem_cons_of_mem a hx)⟩
    cases hs : s.get? a with
    | none =>
      simp only [hmutateGo, hs]
      exact hmutateGo_spec r g gs maxd n fuel s (.mwalk parent rest (idx + 1) c) k
        hjrest hn hc
    | some obj =>
      cases obj with
      | primO v =>
        simp only [hmutateGo, hs]
        exact hmutateGo_spec r g gs maxd n fuel s (.mwalk parent rest (idx + 1) c) k
          hjrest hn hc
      | ctorO c2 m2 rs2 =>
        simp only [hmutateGo, hs]
        by_cases hcle : c ≤ (m2.nodes : Int)
        · rw [if_pos hcle]
          have ih := hmutateGo_spec r g gs maxd n fuel s (.mnode a) k hja hn hc
          cases hres : hmutateGo r g gs maxd fuel s (.mnode a) k with
          | mk s1 q =>
            rw [hres] at ih
            cases q with
            | mk a1 k1 =>
              simp only []
              have hpar : n ≤ parent := hj.1
              refine ⟨?_, ?_, ?_, hj.1⟩
              · rw [hsetField_length]
                exact ih.1
              · intro a' ha'
                rw [hsetField_frame s1 parent idx a1 a' (by omega)]
                exact ih.2.1 a' ha'
              · exact hsetField_closed n s1 parent idx a1 hj.1 ih.2.2.2 ih.2.2.1
        · rw [if_neg hcle]
          exact hmutateGo_spec r g gs maxd n fuel s
            (.mwalk parent rest (idx + 1) (c - (m2.nodes : Int))) k
            ⟨hj.1, fun x hx => hj.2 x (List.mem_cons_of_mem a hx)⟩ hn hc

/-- RLGood states the addresses a relabel job touches are above the
boundary. -/
def RLGood (n : Nat) : RLJob → Prop
  | .rlnode a _ => n ≤ a
  | .rllist as' _ => ∀ x ∈ as', n ≤ x

theorem hrelabelGo_spec (nts : List Nat) (n : Nat) : ∀ (fuel : Nat) (s : Store)
    (j : RLJob), RLGood n j → n ≤ s.length → ClosedAbove n s →
    s.length ≤ (hrelabelGo nts fuel s j).1.length ∧
    (∀ a, a < n → (hrelabelGo nts fuel s j).1.get? a = s.get? a) ∧
    ClosedAbove n (hrelabelGo nts fuel s j).1
  | 0, s, .rlnode a d, _, _, hc => ⟨le_refl _, fun _ _ => rfl, hc⟩
  | 0, s, .rllist as' d, _, _, hc => ⟨le_refl _, fun _ _ => rfl, hc⟩
  | fuel + 1, s, .rlnode a depth, hj, hn, hc => by
    have hja : n ≤ a := hj
    cases hs : s.get? a with
    | none =>
      simp only [hrelabelGo, hs]
      exact ⟨le_refl _, fun _ _ => by trivial, hc⟩
    | some obj =>
      cases obj with
      | primO v =>
        simp only [hrelabelGo, hs]
        exact ⟨le_refl _, fun _ _ => by trivial, hc⟩
      | ctorO c m0 rs =>
        simp only [hrelabelGo, hs]
        by_cases hb : (!(nts.contains c)) = true
        · rw [if_pos hb]
          refine ⟨?_, ?_, ?_⟩
          · rw [hsetMeta_length]
          · intro a' ha'
            rw [hsetMeta_frame s a _ a' (by omega)]
          · exact hsetMeta_closed n s a _ hja hc
        · rw [if_neg hb]
          have ih := hrelabelGo_spec nts n fuel s (.rllist rs (depth + 1))
            (fun x hx => hc a _ hja hs x hx) hn hc
          cases hres : hrelabelGo nts fuel s (.rllist rs (depth + 1)) with
          | mk s1 q =>
            rw [hres] at ih
            cases q with
            | mk n1 d1 =>
              simp only []
              refine ⟨?_, ?_, ?_⟩
              · rw [hsetMeta_length]
                exact ih.1
              · intro a' ha'
                rw [hsetMeta_frame s1 a _ a' (by omega)]
                exact ih.2.1 a' ha'
              · exact hsetMeta_closed n s1 a _ hja ih.2.2
  | fuel + 1, s, .rllist [] depth, _, _, hc => by
    simp only [hrelabelGo]
    exact ⟨le_refl _, fun _ _ => by trivial, hc⟩
  | fuel + 1, s, .rllist (a :: rest) depth, hj, hn, hc => by
    have hja : n ≤ a := hj a (by simp)
    have ih1 := hrelabelGo_spec nts n fuel s (.rlnode a depth) hja hn hc
    simp only [hrelabelGo]
    cases hres1 : hrelabelGo nts fuel s (.rlnode a depth) with
    | mk s1 q1 =>
      rw [hres1] at ih1
      cases q1 with
      | mk n1 d1 =>
        have ih2 := hrelabelGo_spec nts n fuel s1 (.rllist rest depth)
          (fun x hx => hj x (List.mem_cons_of_mem a hx)) (le_trans hn ih1.1) ih1.2.2
        cases hres2 : hrelabelGo nts fuel s1 (.rllist rest depth) with
        | mk s2 q2 =>
          rw [hres2] at ih2
          cases q2 with
          | mk n2 d2 =>
            simp only []
            refine ⟨le_trans ih1.1 ih2.1, ?_, ih2.2.2⟩
            intro a' ha'
            exact (ih2.2.1 a' ha').trans (ih1.2.1 a' ha')

/-- XGood states the addresses a crossover job touches are above the
boundary. -/
def XGood (n : Nat) : XJob → Prop
  | .xnode a => n ≤ a
  | .xwalk parent rs _ _ => n ≤ parent ∧ ∀ x ∈ rs, n ≤ x

theorem hcrossoverGo_spec (r : Nat → Nat) (g : Grammar) (gs : GengyState) (o : Nat)
    (maxd : Int) (n : Nat) (ho : n ≤ o) : ∀ (fuel : Nat) (s : Store) (j : XJob)
    (k : Nat), XGood n j → n ≤ s.length → ClosedAbove n s →
    s.length ≤ (hcrossoverGo r g gs o maxd fuel s j k).1.length ∧
    (∀ a, a < n → (hcrossoverGo r g gs o maxd fuel s j k).1.get? a = s.get? a) ∧
    ClosedAbove n (hcrossoverGo r g gs o maxd fuel s j k).1 ∧
    n ≤ (hcrossoverGo r g gs o maxd fuel s j k).2.1
  | 0, s, .xnode a, k, hj, _, hc => ⟨le_refl _, fun _ _ => rfl, hc, hj⟩
  | 0, s, .xwalk p rs idx c, k, hj, _, hc => ⟨le_refl _, fun _ _ => rfl, hc, hj.1⟩
  | fuel + 1, s, .xnode a, k, hj, hn, hc => by
    cases hs : s.get? a with
    | none =>
      simp only [hcrossoverGo, hs]
      exact ⟨le_refl _, fun _ _ => by trivial, hc, hj⟩
    | some obj =>
      cases obj with
      | primO v =>
        simp only [hcrossoverGo, hs]
        exact ⟨le_refl _, fun _ _ => by trivial, hc, hj⟩
      | ctorO c0 m rs0 =>
        simp only [hcrossoverGo, hs]
        by_cases hm : 0 < m.nodes
        · rw [if_pos hm]
          by_cases hck : (randint r k 0 ((m.nodes : Int) - 1)).1 = 0
          · rw [if_pos hck]
            cases hpo : g.parentOf c0 with
            | none =>
              simp only []
              exact ⟨le_refl _, fun _ _ => by trivial, hc, hj⟩
            | some ty =>
              simp only []
              by_cases hoe : (hfindGo g ty (maxd - (m.depth : Int) + 1) s
                  (2 * s.length + 2) (.fnode o)).isEmpty = true
              · rw [if_pos hoe]
                cases hrn : random_node r g gs (maxd - (m.depth : Int) + 1) ty
                    (randint r k 0 ((m.nodes : Int) - 1)).2 with
                | mk res k2 =>
                  cases res with
                  | ok replacement =>
                    simp only []
                    have hsp := allocTree_spec n s replacement hn hc
                    exact ⟨hsp.1, fun a' ha' => hsp.2.1 a' (by omega), hsp.2.2.1,
                      hsp.2.2.2⟩
                  | error er =>
                    simp only []
                    exact ⟨le_refl _, fun _ _ => by trivial, hc, hj⟩
              · rw [if_neg hoe]
                have hne : hfindGo g ty (maxd - (m.depth : Int) + 1) s
                    (2 * s.length + 2) (.fnode o) ≠ [] := by
                  intro hh
                  apply hoe
                  rw [hh]
                  rfl
                have hmem2 : (choiceA r (randint r k 0 ((m.nodes : Int) - 1)).2
                    (hfindGo g ty (maxd - (m.depth : Int) + 1) s
                      (2 * s.length + 2) (.fnode o))).1 ∈
                    hfindGo g ty (maxd - (m.depth : Int) + 1) s
                      (2 * s.length + 2) (.fnode o) := by
                  unfold choiceA
                  exact getD_mem _ _ 0 (Nat.mod_lt _ (List.length_pos.mpr hne))
                exact ⟨le_refl _, fun _ _ => by trivial, hc,
                  hfindGo_spec g ty (maxd - (m.depth : Int) + 1) s n hc
                    (2 * s.length + 2) (.fnode o) ho _ hmem2⟩
          · rw [if_neg hck]
            exact hcrossoverGo_spec r g gs o maxd n ho fuel s (.xwalk a rs0 0 _) _
              ⟨hj, fun x hx => hc a _ hj hs x hx⟩ hn hc
        · rw [if_neg hm]
          exact ⟨le_refl _, fun _ _ => by trivial, hc, hj⟩
  | fuel + 1, s, .xwalk parent [] idx c, k, hj, _, hc => by
    simp only [hcrossoverGo]
    exact ⟨le_refl _, fun _ _ => by trivial, hc, hj.1⟩
  | fuel + 1, s, .xwalk parent (a :: rest) idx c, k, hj, hn, hc => by
    have hja : n ≤ a := hj.2 a (by simp)
    have hjrest : XGood n (.xwalk parent rest (idx + 1) c) :=
      ⟨hj.1, fun x hx => hj.2 x (List.mem_cons_of_mem a hx)⟩
    cases hs : s.get? a with
    | none =>
      simp only [hcrossoverGo, hs]
      exact hcrossoverGo_spec r g gs o maxd n ho fuel s (.xwalk parent rest (idx + 1) c)
        k hjrest hn hc
    | some obj =>
      cases obj with
      | primO v =>
        simp only [hcrossoverGo, hs]
        exact hcrossoverGo_spec r g gs o maxd n ho fuel s
          (.xwalk parent rest (idx + 1) c) k hjrest hn hc
      | ctorO c2 m2 rs2 =>
        simp only [hcrossoverGo, hs]
        by_cases hcle : c ≤ (m2.nodes : Int)
        · rw [if_pos hcle]
          have ih := hcrossoverGo_spec r g gs o maxd n ho fuel s (.xnode a) k hja hn hc
          cases hres : hcrossoverGo r g gs o maxd fuel s (.xnode a) k with
          | mk s1 q =>
            rw [hres] at ih
            cases q with
            | mk a1 k1 =>
              simp only []
              have hpar : n ≤ parent := hj.1
              refine ⟨?_, ?_, ?_, hj.1⟩
              · rw [hsetField_length]
                exact ih.1
              · intro a' ha'
                rw [hsetField_frame s1 parent idx a1 a' (by omega)]
                exact ih.2.1 a' ha'
              · exact hsetField_closed n s1 parent idx a1 hj.1 ih.2.2.2 ih.2.2.1
        · rw [if_neg hcle]
          exact hcrossoverGo_spec r g gs o maxd n ho fuel s
            (.xwalk parent rest (idx + 1) (c - (m2.nodes : Int))) k
            ⟨hj.1, fun x hx => hj.2 x (List.mem_cons_of_mem a hx)⟩ hn hc

theorem deepcopyH_spec (n : Nat) (s : Store) (i : Nat) (hn : n ≤ s.length)
    (hc : ClosedAbove n s) :
    s.length ≤ (deepcopyH s i).1.length ∧
    (∀ a, a < s.length → (deepcopyH s i).1.get? a = s.get? a) ∧
    ClosedAbove n (deepcopyH s i).1 ∧
    n ≤ (deepcopyH s i).2 :=
  allocTree_spec n s _ hn hc

/-- C6: the heap renderings of mutate and tree_crossover never modify a
pre-existing object: both operate on deep structural copies laid out
above the original store, and every write they perform (field splices
and metadata relabelling) lands in that fresh region, so each address of
the original store holds exactly the object it held before — for any
fuel, random stream, grammar, class-level state, depth budget and
cursor.  Hence the originals' structure and serialized form survive any
number of mutate or crossover calls. -/
theorem claim_C6 (fuel : Nat) (r : Nat → Nat) (g : Grammar) (gs : GengyState)
    (s : Store) (i p1 p2 : Nat) (maxd : Int) (k : Nat) (a : Nat)
    (ha : a < s.length) :
    (hmutate fuel r g gs s i maxd k).1.get? a = s.get? a ∧
    (htree_crossover fuel r g gs s p1 p2 maxd k).1.get? a = s.get? a := by
  constructor
  · have hd := deepcopyH_spec s.length s i (le_refl _) (closedAbove_of_le (le_refl _))
    unfold hmutate
    cases hdc : deepcopyH s i with
    | mk s1 c1 =>
      simp only []
      rw [hdc] at hd
      have hl1 : s.length ≤ s1.length := hd.1
      have hm := hmutateGo_spec r g gs maxd s.length fuel s1 (.mnode c1) k
        hd.2.2.2 hl1 hd.2.2.1
      cases hmr : hmutateGo r g gs maxd fuel s1 (.mnode c1) k with
      | mk s2 q =>
        cases q with
        | mk a2 k2 =>
          simp only []
          rw [hmr] at hm
          have hl2 : s.length ≤ s2.length := le_trans hl1 hm.1
          have hr := hrelabelGo_spec g.non_terminals s.length fuel s2 (.rlnode a2 1)
            hm.2.2.2 hl2 hm.2.2.1
          cases hrr : hrelabelGo g.non_terminals fuel s2 (.rlnode a2 1) with
          | mk s3 q2 =>
            simp only []
            rw [hrr] at hr
            exact (hr.2.1 a ha).trans ((hm.2.1 a ha).trans (hd.2.1 a ha))
  · have h1 := deepcopyH_spec s.length s p1 (le_refl _) (closedAbove_of_le (le_refl _))
    unfold htree_crossover
    cases hc1 : deepcopyH s p1 with
    | mk s1 c1 =>
      simp only []
      rw [hc1] at h1
      have hl1 : s.length ≤ s1.length := h1.1
      have h2 := deepcopyH_spec s.length s1 p2 hl1 h1.2.2.1
      cases hc2 : deepcopyH s1 p2 with
      | mk s2 c2 =>
        simp only []
        rw [hc2] at h2
        have hl2 : s.length ≤ s2.length := le_trans hl1 h2.1
        have h3 := hcrossoverGo_spec r g gs c2 maxd s.length h2.2.2.2 fuel s2
          (.xnode c1) k h1.2.2.2 hl2 h2.2.2.1
        cases hx1 : hcrossoverGo r g gs c2 maxd fuel s2 (.xnode c1) k with
        | mk s3 q1 =>
          cases q1 with
          | mk a1 k1 =>
            simp only []
            rw [hx1] at h3
            have hl3 : s.length ≤ s3.length := le_trans hl2 h3.1
            have h4 := hrelabelGo_spec g.non_terminals s.length fuel s3 (.rlnode a1 1)
              h3.2.2.2 hl3 h3.2.2.1
            cases hr1 : hrelabelGo g.non_terminals fuel s3 (.rlnode a1 1) with
            | mk s4 q2 =>
              simp only []
              rw [hr1] at h4
              have hl4 : s.length ≤ s4.length := le_trans hl3 h4.1
              have h5 := deepcopyH_spec s.length s4 p2 hl4 h4.2.2
              cases hc3 : deepcopyH s4 p2 with
              | mk s5 c3 =>
                simp only []
                rw [hc3] at h5
                have hl5 : s.length ≤ s5.length := le_trans hl4 h5.1
                have h6 := deepcopyH_spec s.length s5 p1 hl5 h5.2.2.1
                cases hc4 : deepcopyH s5 p1 with
                | mk s6 c4 =>
                  simp only []
                  rw [hc4] at h6
                  have hl6 : s.length ≤ s6.length := le_trans hl5 h6.1
                  have h7 := hcrossoverGo_spec r g gs c4 maxd s.length h6.2.2.2
                    fuel s6 (.xnode c3) k1 h5.2.2.2 hl6 h6.2.2.1
                  cases hx2 : hcrossoverGo r g gs c4 maxd fuel s6 (.xnode c3) k1 with
                  | mk s7 q3 =>
                    cases q3 with
                    | mk a2 k2 =>
                      simp only []
                      rw [hx2] at h7
                      have hl7 : s.length ≤ s7.length := le_trans hl6 h7.1
                      have h8 := hrelabelGo_spec g.non_terminals s.length fuel s7
                        (.rlnode a2 1) h7.2.2.2 hl7 h7.2.2.1
                      cases hr2 : hrelabelGo g.non_terminals fuel s7 (.rlnode a2 1) with
                      | mk s8 q4 =>
                        simp only []
                        rw [hr2] at h8
                        exact (h8.2.1 a ha).trans ((h7.2.1 a ha).trans
                          ((h6.2.1 a (by omega)).trans ((h5.2.1 a (by omega)).trans
                          ((h4.2.1 a ha).trans ((h3.2.1 a ha).trans
                          ((h2.2.1 a (by omega)).trans (h1.2.1 a ha)))))))

theorem claim_C6_witness :
    ((0 : Nat) < ([HObj.primO 7] : Store).length) ∧
    ((hmutate 1 rZero exprG gsNone [HObj.primO 7] 0 0 0).1.get? 0 =
        ([HObj.primO 7] : Store).get? 0 ∧
      (htree_crossover 1 rZero exprG gsNone [HObj.primO 7] 0 0 0 0).1.get? 0 =
        ([HObj.primO 7] : Store).get? 0) :=
  ⟨by decide, claim_C6 1 rZero exprG gsNone [HObj.primO 7] 0 0 0 0 0 0 (by decide)⟩
